import Mathlib

/-!
# Shallow embedding of the `qoi-rust` QOI codec

This file embeds the QOI (Quite OK Image) encoder and decoder of the
`qoi-rust` crate (`src/encode.rs`, `src/decode.rs`, `src/header.rs`,
`src/pixel.rs`, `src/types.rs`, `src/consts.rs`) as executable Lean
definitions, and proves properties of the embedded code.

Modelling conventions:
* machine bytes (`u8`) are `Nat` values with explicit wrapping (`% 256`);
  `usize` arithmetic is `Nat`, with saturation modelled explicitly where
  the source uses `saturating_mul`;
* fallible functions return `Except QErr`; a Rust panic reachable from
  safe code is modelled by an `Option` layer (`none` = panic);
* `Pixel<N>` (an `[u8; N]` in the source, `N ∈ {3,4}`) is a 4-field
  structure plus the channel count `n` passed to each operation; for
  `n = 3` the `a` field is a phantom that every operation leaves at `0`,
  matching the absence of a fourth byte in the source;
* the decoder loop, a `while` over the remaining pixel slots, is embedded
  with structural recursion on a fuel argument; every iteration of the
  source loop consumes at least one pixel slot, so `fuel = slots` makes
  the embedding compute exactly the source loop.
-/

deriving instance DecidableEq for Except

/-- `u8::wrapping_add` on byte-valued naturals. -/
def wadd8 (x y : Nat) : Nat := (x + y) % 256

/-- `u8::wrapping_mul` on byte-valued naturals. -/
def wmul8 (x y : Nat) : Nat := (x * y) % 256

/-- `u8::wrapping_sub` on byte-valued naturals (`x < 256`). -/
def wsub8 (x y : Nat) : Nat := (x + 256 - y % 256) % 256

/-- `src/pixel.rs`: `Pixel<N>` is `[u8; N]`; modelled with a phantom `a = 0`
when `N = 3`. -/
structure Pixel where
  r : Nat
  g : Nat
  b : Nat
  a : Nat
deriving DecidableEq, Repr

/-- `Pixel::new`: all components zero (note: alpha zero, not `0xff`). -/
def Pixel.new : Pixel := ⟨0, 0, 0, 0⟩

/-- `Pixel::with_a`: sets alpha when `N >= 4`, no-op otherwise. -/
def Pixel.with_a (n : Nat) (p : Pixel) (v : Nat) : Pixel :=
  if 4 ≤ n then { p with a := v } else p

/-- `Pixel::a_or`: the stored alpha when `N >= 4`, the given default otherwise. -/
def Pixel.a_or (n : Nat) (p : Pixel) (v : Nat) : Nat :=
  if n < 4 then v else p.a

/-- `Pixel::as_rgba`: widen to 4 channels, using the given alpha when `N < 4`. -/
def Pixel.as_rgba (n : Nat) (p : Pixel) (withA : Nat) : Pixel :=
  if n < 4 then { p with a := withA } else p

/-- `Pixel::hash_index`: `(r*3 + g*5 + b*7 + a*11) mod 64` in wrapping byte
arithmetic, with alpha defaulted to `0xff` for 3-channel pixels. -/
def Pixel.hash_index (n : Nat) (p : Pixel) : Nat :=
  (wadd8 (wadd8 (wadd8 (wmul8 p.r 3) (wmul8 p.g 5)) (wmul8 p.b 7))
    (wmul8 (p.a_or n 0xff) 11)) % 64

/-- `Pixel::rgb_add`: wrapping add on the three color components. -/
def Pixel.rgb_add (p : Pixel) (dr dg db : Nat) : Pixel :=
  ⟨wadd8 p.r dr, wadd8 p.g dg, wadd8 p.b db, p.a⟩

/-- `Pixel::read`: overwrite the `N` stored bytes from a chunk of length `N`
(the phantom alpha of a 3-channel pixel is untouched). -/
def Pixel.read (n : Nat) (p : Pixel) (chunk : List Nat) : Pixel :=
  ⟨chunk.getD 0 0, chunk.getD 1 0, chunk.getD 2 0,
    if 4 ≤ n then chunk.getD 3 0 else p.a⟩

/-- Modelled from the spec: `Pixel::update_rgb` (absent from the `pixel.rs`
snapshot; only its callers in `encode.rs`/`decode.rs` are present): set the
color bytes from an RGB literal, "alpha unchanged from previous". -/
def Pixel.update_rgb (p : Pixel) (r g b : Nat) : Pixel :=
  ⟨r, g, b, p.a⟩

/-- Modelled from the spec: `Pixel::update_rgba` (absent from the `pixel.rs`
snapshot): set all four bytes from an RGBA literal; a 3-channel pixel drops
the alpha byte. -/
def Pixel.update_rgba (n : Nat) (p : Pixel) (r g b a : Nat) : Pixel :=
  ⟨r, g, b, if 4 ≤ n then a else p.a⟩

/-- Modelled from the spec: `Pixel::update_diff` (absent from the `pixel.rs`
snapshot): apply the three 2-bit `QOI_OP_DIFF` deltas (biased by `+2`,
packed `rr gg bb` in the low six bits) with wrapping byte adds. -/
def Pixel.update_diff (p : Pixel) (b1 : Nat) : Pixel :=
  p.rgb_add (wsub8 (b1 / 16 % 4) 2) (wsub8 (b1 / 4 % 4) 2) (wsub8 (b1 % 4) 2)

/-- Modelled from the spec: `Pixel::update_luma` (absent from the `pixel.rs`
snapshot): `vg = (b1 & 0x3f) - 32`, `vr = vg - 8 + (b2 >> 4)`,
`vb = vg - 8 + (b2 & 0x0f)`, applied with wrapping byte adds. -/
def Pixel.update_luma (p : Pixel) (b1 b2 : Nat) : Pixel :=
  p.rgb_add (wadd8 (wsub8 (wsub8 (b1 % 64) 32) 8) (b2 / 16))
    (wsub8 (b1 % 64) 32)
    (wadd8 (wsub8 (wsub8 (b1 % 64) 32) 8) (b2 % 16))

/-! ## Opcode constants

`encode.rs` and `decode.rs` import `QOI_OP_INDEX`, `QOI_OP_DIFF`,
`QOI_OP_LUMA`, `QOI_OP_RUN`, `QOI_OP_RGB`, `QOI_OP_RGBA` from
`crate::consts`; the `consts.rs` version in the snapshot predates these
names, so their values are modelled from the spec ("Byte constants:
`INDEX=0x00`, `DIFF=0x40`, `LUMA=0x80`, `RUN=0xC0`, `RGB=0xFE`,
`RGBA=0xFF`"), which is also the assignment pinned down by the usage in
`tests/test_misc.rs`. -/

/-- Modelled from the spec: the `QOI_OP_INDEX` tag byte. -/
def QOI_OP_INDEX : Nat := 0x00

/-- Modelled from the spec: the `QOI_OP_DIFF` tag byte. -/
def QOI_OP_DIFF : Nat := 0x40

/-- Modelled from the spec: the `QOI_OP_LUMA` tag byte. -/
def QOI_OP_LUMA : Nat := 0x80

/-- Modelled from the spec: the `QOI_OP_RUN` tag byte. -/
def QOI_OP_RUN : Nat := 0xc0

/-- Modelled from the spec: the `QOI_OP_RGB` opcode byte. -/
def QOI_OP_RGB : Nat := 0xfe

/-- Modelled from the spec: the `QOI_OP_RGBA` opcode byte. -/
def QOI_OP_RGBA : Nat := 0xff

/-- `decode.rs`: `QOI_OP_INDEX | 0x3f`. -/
def QOI_OP_INDEX_END : Nat := QOI_OP_INDEX ||| 0x3f

/-- `decode.rs`: `QOI_OP_RUN | 0x3d` (note `0x3d`, not `0x3f`: `0xfe`/`0xff`
shadow the two top run lengths). -/
def QOI_OP_RUN_END : Nat := QOI_OP_RUN ||| 0x3d

/-- `decode.rs`: `QOI_OP_DIFF | 0x3f`. -/
def QOI_OP_DIFF_END : Nat := QOI_OP_DIFF ||| 0x3f

/-- `decode.rs`: `QOI_OP_LUMA | 0x3f`. -/
def QOI_OP_LUMA_END : Nat := QOI_OP_LUMA ||| 0x3f

/-- `consts.rs`: header size in bytes. -/
def QOI_HEADER_SIZE : Nat := 14

/-- `consts.rs`: the 8-byte stream end marker. -/
def QOI_PADDING : List Nat := [0, 0, 0, 0, 0, 0, 0, 1]

/-- `consts.rs`: size of the end marker. -/
def QOI_PADDING_SIZE : Nat := 8

/-- `consts.rs`: `(b'q' << 24) | (b'o' << 16) | (b'i' << 8) | b'f'`. -/
def QOI_MAGIC : Nat := (0x71 <<< 24) ||| (0x6f <<< 16) ||| (0x69 <<< 8) ||| 0x66

/-- `consts.rs`: maximum number of pixels. -/
def QOI_PIXELS_MAX : Nat := 400000000

/-- `src/error.rs` / `src/header.rs`: the error taxonomy (variants as used by
the embedded code paths). -/
inductive QErr where
  | InvalidMagic (magic : Nat)
  | InvalidChannels (channels : Nat)
  | InvalidColorSpace (colorspace : Nat)
  | EmptyImage (width height : Nat)
  | ImageTooLarge (width height : Nat)
  | InvalidImageLength (size width height : Nat)
  | OutputBufferTooSmall (size required : Nat)
  | InputBufferTooSmall (size required : Nat)
  | UnexpectedBufferEnd
  | InvalidPadding
deriving DecidableEq, Repr

/-- `src/header.rs`: the image header (`channels`/`colorspace` kept as their
byte values, as produced by `Channels::as_u8` / `ColorSpace::as_u8`). -/
structure QHeader where
  width : Nat
  height : Nat
  channels : Nat
  colorspace : Nat
deriving DecidableEq, Repr

/-- `u32::to_be_bytes`. -/
def be32 (x : Nat) : List Nat :=
  [x / 2 ^ 24 % 256, x / 2 ^ 16 % 256, x / 2 ^ 8 % 256, x % 256]

/-- `u32::from_be_bytes` on byte values. -/
def be32val (b0 b1 b2 b3 : Nat) : Nat :=
  b0 * 2 ^ 24 + b1 * 2 ^ 16 + b2 * 2 ^ 8 + b3

/-- `Header::try_new`: dimension validation (`width`/`height` are `u32`, so
the `usize` product cannot saturate; plain multiplication is exact). -/
def headerTryNew (w h ch cs : Nat) : Except QErr QHeader :=
  if h = 0 ∨ w = 0 then .error (.EmptyImage w h)
  else if w * h > QOI_PIXELS_MAX then .error (.ImageTooLarge w h)
  else .ok ⟨w, h, ch, cs⟩

/-- `Header::encode`: magic, width (BE), height (BE), channels, colorspace. -/
def headerEncode (w h ch cs : Nat) : List Nat :=
  be32 QOI_MAGIC ++ be32 w ++ be32 h ++ [ch, cs]

/-- `Header::decode`: note the source order — the channels byte (offset 12)
and colorspace byte (offset 13) are validated with `?` before the magic is
compared. -/
def headerDecode (data : List Nat) : Except QErr QHeader :=
  if data.length < QOI_HEADER_SIZE then
    .error (.InputBufferTooSmall data.length QOI_HEADER_SIZE)
  else
    let magic := be32val (data.getD 0 0) (data.getD 1 0) (data.getD 2 0) (data.getD 3 0)
    let width := be32val (data.getD 4 0) (data.getD 5 0) (data.getD 6 0) (data.getD 7 0)
    let height := be32val (data.getD 8 0) (data.getD 9 0) (data.getD 10 0) (data.getD 11 0)
    let ch := data.getD 12 0
    if ch ≠ 3 ∧ ch ≠ 4 then .error (.InvalidChannels ch)
    else
      let cs := data.getD 13 0
      if cs ||| 1 ≠ 1 then .error (.InvalidColorSpace cs)
      else if magic ≠ QOI_MAGIC then .error (.InvalidMagic magic)
      else headerTryNew width height ch cs

/-- `encode.rs`: `encode_max_len`; `saturating_mul` on 64-bit `usize`. -/
def satMul64 (a b : Nat) : Nat := min (a * b) (2 ^ 64 - 1)

/-- `encode.rs`: `encode_max_len(width, height, channels)`. -/
def encode_max_len (w h ch : Nat) : Nat :=
  QOI_HEADER_SIZE + satMul64 (satMul64 w h) ch + satMul64 w h + QOI_PADDING_SIZE

/-! ## Encoder core (`src/encode.rs`, `encode_impl`) -/

/-- Modelled from the spec: `Pixel::encode_into` (absent from the `pixel.rs`
snapshot): opcode selection for one differing pixel — `DIFF` when all three
wrapping deltas are in `[-2, 1]`, else `LUMA` when the green delta is in
`[-32, 31]` and the red/blue deltas relative to green are in `[-8, 7]`,
else `RGB`; `RGBA` when the alpha changed (4-channel pixels only).  The
biased payloads occupy disjoint low bits of the tag bytes, so bitwise `or`
with the tag is written as addition. -/
def Pixel.encode_into (n : Nat) (p pp : Pixel) : List Nat :=
  if n = 3 ∨ p.a = pp.a then
    let vr := wsub8 p.r pp.r
    let vg := wsub8 p.g pp.g
    let vb := wsub8 p.b pp.b
    let vr2 := wadd8 vr 2
    let vg2 := wadd8 vg 2
    let vb2 := wadd8 vb 2
    if vr2 ≤ 3 ∧ vg2 ≤ 3 ∧ vb2 ≤ 3 then
      [QOI_OP_DIFF + 16 * vr2 + 4 * vg2 + vb2]
    else
      let vg32 := wadd8 vg 32
      let vrg8 := wadd8 (wsub8 vr vg) 8
      let vbg8 := wadd8 (wsub8 vb vg) 8
      if vg32 ≤ 63 ∧ vrg8 ≤ 15 ∧ vbg8 ≤ 15 then
        [QOI_OP_LUMA + vg32, 16 * vrg8 + vbg8]
      else
        [QOI_OP_RGB, p.r, p.g, p.b]
  else
    [QOI_OP_RGBA, p.r, p.g, p.b, p.a]

/-- `encode_impl`: initial index table (all-zero pixels, alpha included). -/
def encInitIndex : List Pixel := List.replicate 256 Pixel.new

/-- `encode_impl`: initial previous pixel, `Pixel::new().with_a(0xff)`. -/
def encInitPrev (n : Nat) : Pixel := Pixel.new.with_a n 0xff

/-- The run-flush bytes of `encode_impl`'s differing-pixel branch: with a
pending run, default mode emits `QOI_OP_INDEX | hash_prev` when
`run == 1 && index_allowed`, otherwise `QOI_OP_RUN | (run - 1)`; the
`reference` feature always emits the RUN opcode. -/
def flushRun (refMode : Bool) (run hp : Nat) (allowed : Bool) : List Nat :=
  if run ≠ 0 then
    if refMode then [QOI_OP_RUN + (run - 1)]
    else if run = 1 ∧ allowed = true then [QOI_OP_INDEX + hp]
    else [QOI_OP_RUN + (run - 1)]
  else []

/-- The pixel loop of `encode_impl`, producing the opcode bytes.  State:
current pixel list, pixel counter `i`, `n_pixels`, index table, previous
pixel, `hash_prev`, pending `run`, `index_allowed`.  `refMode` selects the
`reference` feature (always flush runs as `QOI_OP_RUN`).  The biased
payloads occupy the low six bits of the tag bytes, so the source's bitwise
`or` is written as addition. -/
def encodeLoop (n : Nat) (refMode : Bool) :
    List Pixel → Nat → Nat → List Pixel → Pixel → Nat → Nat → Bool → List Nat
  | [], _, _, _, _, _, _, _ => []
  | px :: rest, i, np, index, pp, hp, run, allowed =>
    if px = pp then
      if run + 1 = 62 ∨ i = np - 1 then
        (QOI_OP_RUN + (run + 1 - 1)) ::
          encodeLoop n refMode rest (i + 1) np index pp hp 0 allowed
      else
        encodeLoop n refMode rest (i + 1) np index pp hp (run + 1) allowed
    else
      flushRun refMode run hp allowed ++
        (if index.getD ((px.as_rgba n 0xff).hash_index 4) Pixel.new =
            px.as_rgba n 0xff then
          (QOI_OP_INDEX + (px.as_rgba n 0xff).hash_index 4) ::
            encodeLoop n refMode rest (i + 1) np index px
              ((px.as_rgba n 0xff).hash_index 4) 0 true
        else
          px.encode_into n pp ++
            encodeLoop n refMode rest (i + 1) np
              (index.set ((px.as_rgba n 0xff).hash_index 4) (px.as_rgba n 0xff))
              px ((px.as_rgba n 0xff).hash_index 4) 0 true)

/-- `pixel_row.chunks_exact(R)`: the `w` R-byte chunks of one row. -/
def rowPixels (n : Nat) : Nat → List Nat → List (List Nat)
  | 0, _ => []
  | w + 1, row =>
    if row.length < n then [] else row.take n :: rowPixels n w (row.drop n)

/-- `data.chunks(stride).take(height)`, each row cut to `width * R` bytes and
split into pixels.  (The source slices `&row[..width * R]`, which panics on a
short row; the builder's size checks make every row exactly `stride` long on
all paths embedded here, where the `take` is exact.) -/
def encodeRows (n stride w : Nat) : Nat → List Nat → List (List Nat)
  | 0, _ => []
  | h + 1, data =>
    if data.length = 0 then []
    else
      rowPixels n w ((data.take stride).take (w * n)) ++
        encodeRows n stride w h (data.drop stride)

/-- `encode_impl` for the canonical `Rgb`/`Rgba` source layouts
(`read_px = Pixel::read`): read the pixel stream, run the opcode loop, then
write the 8-byte end marker.  (The same mutable scratch pixel is reused by
the source across iterations; `Pixel::read` overwrites every stored byte, so
mapping `read` over the chunks from a fixed initial pixel is exact.) -/
def encodeImpl (n : Nat) (refMode : Bool) (data : List Nat) (w h stride : Nat) :
    List Nat :=
  let pixels := (encodeRows n stride w h data).map (Pixel.read n (encInitPrev n))
  encodeLoop n refMode pixels 0 (w * h) encInitIndex (encInitPrev n)
    ((encInitPrev n).hash_index n) 0 false ++ QOI_PADDING

/-- `Encoder::new(data, w, h).encode_to_vec()` (equally `encode_to_vec`):
stride is inferred as `len / h`, the source layout as `Rgb` iff
`stride == w * 3`, then the buffer length must be exactly `w * h * bpp`;
`Header::try_new` validates the dimensions; the output is the 14 header
bytes followed by the opcode stream and the end marker.
(`encode_to_buf`'s `OutputBufferTooSmall` check cannot fire on this path:
`encode_to_vec` allocates `encode_max_len` bytes, and the bound proved below
keeps the writer within capacity, so `BytesMut::write_one` cannot panic.) -/
def qoiEncodeM (refMode : Bool) (data : List Nat) (w h : Nat) :
    Except QErr (List Nat) :=
  if h = 0 then .error (.InvalidImageLength data.length w h)
  else
    let stride := data.length / h
    let n := if stride = w * 3 then 3 else 4
    if data.length ≠ w * h * n then .error (.InvalidImageLength data.length w h)
    else
      match headerTryNew w h n 0 with
      | .error e => .error e
      | .ok hdr =>
        .ok (headerEncode hdr.width hdr.height hdr.channels hdr.colorspace ++
          encodeImpl n refMode data w h stride)

/-- `encode_to_vec` with the default feature set (no `reference` flag). -/
def qoiEncode (data : List Nat) (w h : Nat) : Except QErr (List Nat) :=
  qoiEncodeM false data w h

/-! ## Decoder core (`src/decode.rs`, `qoi_decode_impl_slice`) -/

/-- One iteration of the opcode dispatch of `qoi_decode_impl_slice`'s loop,
following the source's match arms in order: INDEX, RGB, RGBA (guarded by the
`RGBA` const flag), RUN, DIFF, LUMA, and the default arm.  Returns the new
running pixel, whether the index table is updated with it (the INDEX and RUN
arms `continue` past the update in the source), the *unclamped* run payload
(`b1 & 0x3f`, nonzero only for RUN; the loop clamps it with `min` against
the remaining slots), and the remaining input.

A matched opcode head whose continuation bytes are missing falls through to
the source's default arm; since no later range arm can match those heads and
fewer than 8 bytes remain, that is the immediate `UnexpectedBufferEnd`
below.  The default arm with 8 or more bytes left consumes no input and
keeps the pixel. -/
def decodeOp (n : Nat) (rgba : Bool) (data : List Nat) (index : List Pixel)
    (px : Pixel) : Except QErr (Pixel × Bool × Nat × List Nat) :=
  match data with
  | [] => .error .UnexpectedBufferEnd
  | b1 :: dtail =>
    if b1 ≤ QOI_OP_INDEX_END then
      .ok (index.getD b1 Pixel.new, false, 0, dtail)
    else if b1 = QOI_OP_RGB then
      match dtail with
      | r :: g :: b :: dtail1 => .ok (px.update_rgb r g b, true, 0, dtail1)
      | _ => .error .UnexpectedBufferEnd
    else if b1 = QOI_OP_RGBA ∧ rgba = true then
      match dtail with
      | r :: g :: b :: a :: dtail1 => .ok (px.update_rgba n r g b a, true, 0, dtail1)
      | _ => .error .UnexpectedBufferEnd
    else if QOI_OP_RUN ≤ b1 ∧ b1 ≤ QOI_OP_RUN_END then
      .ok (px, false, b1 % 64, dtail)
    else if QOI_OP_DIFF ≤ b1 ∧ b1 ≤ QOI_OP_DIFF_END then
      .ok (px.update_diff b1, true, 0, dtail)
    else if QOI_OP_LUMA ≤ b1 ∧ b1 ≤ QOI_OP_LUMA_END then
      match dtail with
      | b2 :: dtail1 => .ok (px.update_luma b1 b2, true, 0, dtail1)
      | [] => .error .UnexpectedBufferEnd
    else
      if data.length < QOI_PADDING_SIZE then .error .UnexpectedBufferEnd
      else .ok (px, true, 0, data)

/-- The pixel loop of `qoi_decode_impl_slice`.  `slots` is the number of
remaining `[u8; N]` output slots, `data` the remaining input, `index` the
64-entry table (stored in a 256-entry list as in the source), `px` the
running pixel.  Returns the written pixels and the remaining input.
Each iteration pops one output slot, dispatches one opcode via `decodeOp`,
writes the resulting pixel `1 + run` times (`run` clamped by the remaining
slots exactly as `((b1 & 0x3f) as usize).min(pixels.len())` in the source),
and updates the index table unless the arm `continue`d past the update.
After the last slot, the 8-byte end marker is checked.

`fuel` only drives the structural recursion: every iteration of the source
loop consumes at least one slot, so any `fuel ≥ slots` computes the source
loop exactly (the callers pass `fuel = slots`); the `fuel = 0, slots > 0`
branch is unreachable under that discipline. -/
def decodeLoop (n : Nat) (rgba : Bool) :
    Nat → Nat → List Nat → List Pixel → Pixel →
      Except QErr (List Pixel × List Nat)
  | _, 0, data, _, _ =>
    if data.length < QOI_PADDING_SIZE then .error .UnexpectedBufferEnd
    else if data.take QOI_PADDING_SIZE ≠ QOI_PADDING then .error .InvalidPadding
    else .ok ([], data)
  | 0, _ + 1, _, _, _ => .error .UnexpectedBufferEnd
  | fuel + 1, slots1 + 1, data, index, px =>
    match decodeOp n rgba data index px with
    | .error e => .error e
    | .ok (px1, upd, runRaw, rest) =>
      let run := min runRaw slots1
      let index1 := if upd then index.set (px1.hash_index n) px1 else index
      (decodeLoop n rgba fuel (slots1 - run) rest index1 px1).map
        (fun s => (px1 :: (List.replicate run px1 ++ s.1), s.2))

/-- `qoi_decode_impl_slice` over an output buffer of `outLen` bytes:
`cast_slice_mut::<_, [u8; N]>` panics (modelled as `none`) unless `N`
divides `outLen`; the pixel count is `outLen / N`.  On success, returns the
written pixels and `n_read` (consumed bytes, saturating-minus the padding
size, as in the source). -/
def decodeImplSlice (n : Nat) (rgba : Bool) (data : List Nat) (outLen : Nat) :
    Option (Except QErr (List Pixel × Nat)) :=
  if outLen % n ≠ 0 then none
  else
    some ((decodeLoop n rgba (outLen / n) (outLen / n) data
        (List.replicate 256 Pixel.new) (Pixel.new.with_a n 0xff)).map
      (fun s => (s.1, data.length - s.2.length - QOI_PADDING_SIZE)))

/-- `qoi_decode_impl_slice_all`: dispatch on requested and source channels;
the `RGBA` const flag is set iff the source (header) channels are 4. -/
def decodeImplSliceAll (channels src : Nat) (data : List Nat) (outLen : Nat) :
    Option (Except QErr (List Pixel × Nat)) :=
  if channels = 3 ∧ src = 3 then decodeImplSlice 3 false data outLen
  else if channels = 3 ∧ src = 4 then decodeImplSlice 3 true data outLen
  else if channels = 4 ∧ src = 3 then decodeImplSlice 4 false data outLen
  else if channels = 4 ∧ src = 4 then decodeImplSlice 4 true data outLen
  else some (.error (.InvalidChannels channels))

/-- `Pixel::into::<[u8; N]>`: the stored bytes of a pixel. -/
def pixelBytes (n : Nat) (p : Pixel) : List Nat :=
  if n < 4 then [p.r, p.g, p.b] else [p.r, p.g, p.b, p.a]

/-- The bytes written to the output buffer for a list of decoded pixels. -/
def flattenBytes (n : Nat) (ws : List Pixel) : List Nat :=
  (ws.map (pixelBytes n)).flatten

/-- `QoiDecoder::new(data).with_channels(...).decode_to_vec()`: decode the
header, then decode the opcode stream into a fresh buffer of exactly
`n_pixels * channels` bytes (`channels = header channels` when no override
is given).  The buffer length is an exact multiple of the requested
channel count, so the `cast_slice_mut` panic is unreachable on this path
(the `none` arm below is dead). -/
def qoiDecodeToVecWith (channels : Option Nat) (data : List Nat) :
    Except QErr (QHeader × List Nat) :=
  match headerDecode data with
  | .error e => .error e
  | .ok hdr =>
    let req := channels.getD hdr.channels
    match decodeImplSliceAll req hdr.channels (data.drop QOI_HEADER_SIZE)
        (hdr.width * hdr.height * req) with
    | none => .error .UnexpectedBufferEnd
    | some (.error e) => .error e
    | some (.ok s) => .ok (hdr, flattenBytes req s.1)

/-- `decode_to_vec` (header channels). -/
def qoiDecodeToVec (data : List Nat) : Except QErr (QHeader × List Nat) :=
  qoiDecodeToVecWith none data

/-- `QoiDecoder::new(data).decode_to_buf(buf)` for a caller buffer of
`bufLen` bytes: after the `OutputBufferTooSmall` check the source passes the
whole buffer (not `buf[..size]`) to `qoi_decode_impl_slice_all`, so the
`cast_slice_mut` panic (`none`) is reachable whenever `bufLen` is not a
multiple of the channel count, and otherwise all `bufLen / N` slots are
filled.  On success returns the written bytes and the returned size. -/
def qoiDecodeToBuf (data : List Nat) (bufLen : Nat) :
    Option (Except QErr (List Nat × Nat)) :=
  match headerDecode data with
  | .error e => some (.error e)
  | .ok hdr =>
    let size := hdr.width * hdr.height * hdr.channels
    if bufLen < size then some (.error (.OutputBufferTooSmall bufLen size))
    else
      match decodeImplSliceAll hdr.channels hdr.channels
          (data.drop QOI_HEADER_SIZE) bufLen with
      | none => none
      | some (.error e) => some (.error e)
      | some (.ok s) => some (.ok (flattenBytes hdr.channels s.1, size))

/-! ## Simulation infrastructure for the round-trip proofs

The encoder's index table stores 4-channel pixels (`px.as_rgba(0xff)`); the
decoder's stores `N`-channel pixels.  `convD` maps an encoder table entry to
the corresponding decoder entry (dropping the alpha into the phantom `0`
for a 3-channel decoder), and `phiP` maps a source pixel to the pixel the
decoder reconstructs for it. -/

/-- Decoder view of a 4-channel table entry. -/
def convD (nd : Nat) (q : Pixel) : Pixel :=
  if nd < 4 then { q with a := 0 } else q

/-- Decoder pixel corresponding to a source pixel. -/
def phiP (ne nd : Nat) (p : Pixel) : Pixel :=
  convD nd (p.as_rgba ne 0xff)

/-- Wellformedness of a source pixel for an encode (`ne` channels) decoded at
`nd` channels: byte-valued components, phantom alpha for 3-channel sources,
and (for the 4-to-3 conversion round trip) opaque alpha. -/
def GoodPx (ne nd : Nat) (p : Pixel) : Prop :=
  p.r < 256 ∧ p.g < 256 ∧ p.b < 256 ∧ p.a < 256 ∧
    (ne = 3 → p.a = 0) ∧ (ne = 4 → nd = 3 → p.a = 255)

theorem QOI_OP_INDEX_END_eq : QOI_OP_INDEX_END = 63 := by decide

theorem QOI_OP_RUN_END_eq : QOI_OP_RUN_END = 253 := by decide

theorem QOI_OP_DIFF_END_eq : QOI_OP_DIFF_END = 127 := by decide

theorem QOI_OP_LUMA_END_eq : QOI_OP_LUMA_END = 191 := by decide

theorem QOI_MAGIC_eq : QOI_MAGIC = 0x716f6966 := by decide

theorem hash_index_lt (n : Nat) (p : Pixel) : p.hash_index n < 64 :=
  Nat.mod_lt _ (by decide)

theorem convD_new (nd : Nat) : convD nd Pixel.new = Pixel.new := by
  unfold convD Pixel.new
  split <;> rfl

theorem getD_map_conv (nd : Nat) (l : List Pixel) (i : Nat) :
    (l.map (convD nd)).getD i Pixel.new = convD nd (l.getD i Pixel.new) := by
  simp only [List.getD_eq_getElem?_getD, List.getElem?_map]
  cases l[i]? with
  | none => simp [convD_new]
  | some q => rfl

theorem getD_set_self_of_lt (l : List Pixel) (i : Nat) (x d : Pixel)
    (h : i < l.length) : (l.set i x).getD i d = x := by
  simp only [List.getD_eq_getElem?_getD, List.getElem?_set_self h]
  rfl

/-- `phiP` preserves the color components. -/
theorem phiP_r (ne nd : Nat) (p : Pixel) : (phiP ne nd p).r = p.r := by
  unfold phiP convD Pixel.as_rgba
  split <;> split <;> rfl

theorem phiP_g (ne nd : Nat) (p : Pixel) : (phiP ne nd p).g = p.g := by
  unfold phiP convD Pixel.as_rgba
  split <;> split <;> rfl

theorem phiP_b (ne nd : Nat) (p : Pixel) : (phiP ne nd p).b = p.b := by
  unfold phiP convD Pixel.as_rgba
  split <;> split <;> rfl

/-- The alpha of the decoder pixel: `0` for a 3-channel decoder, `0xff` for a
3-channel source decoded at 4 channels, and the source alpha otherwise. -/
theorem phiP_a (ne nd : Nat) (p : Pixel) :
    (phiP ne nd p).a =
      if nd < 4 then 0 else if ne < 4 then 255 else p.a := by
  unfold phiP convD Pixel.as_rgba
  split <;> split <;> rfl

/-- Alphas transported by `phiP` agree whenever the source alphas agree or
the source has 3 channels. -/
theorem phiP_a_eq (ne nd : Nat) (p pp : Pixel) (h : ne = 3 ∨ p.a = pp.a) :
    (phiP ne nd p).a = (phiP ne nd pp).a := by
  rw [phiP_a, phiP_a]
  rcases h with h | h
  · subst h
    rfl
  · rw [h]

/-- The decoder-side hash of the decoder pixel equals the encoder-side hash
of the widened source pixel. -/
theorem hash_phiP (ne nd : Nat) (p : Pixel)
    (hne : ne = 3 ∨ ne = 4) (hnd : nd = 3 ∨ nd = 4) (hgood : GoodPx ne nd p) :
    (phiP ne nd p).hash_index nd = (p.as_rgba ne 0xff).hash_index 4 := by
  obtain ⟨-, -, -, -, h3, h43⟩ := hgood
  rcases hnd with h | h <;> subst h
  · rcases hne with he | he <;> subst he
    · simp [phiP, convD, Pixel.hash_index, Pixel.a_or, Pixel.as_rgba]
    · have ha := h43 rfl rfl
      simp [phiP, convD, Pixel.hash_index, Pixel.a_or, Pixel.as_rgba, ha]
  · unfold phiP convD
    simp

/-! ## One-step unfolding lemmas for the decoder -/

theorem decodeLoop_pad (n : Nat) (rgba : Bool) (fuel : Nat) (data : List Nat)
    (idx : List Pixel) (px : Pixel) :
    decodeLoop n rgba fuel 0 data idx px =
      if data.length < QOI_PADDING_SIZE then .error .UnexpectedBufferEnd
      else if data.take QOI_PADDING_SIZE ≠ QOI_PADDING then .error .InvalidPadding
      else .ok ([], data) := by
  cases fuel <;> rfl

theorem decodeLoop_cons (n : Nat) (rgba : Bool) (fuel slots1 : Nat)
    (data : List Nat) (idx : List Pixel) (px px1 : Pixel) (upd : Bool)
    (runRaw : Nat) (rest : List Nat)
    (h : decodeOp n rgba data idx px = .ok (px1, upd, runRaw, rest)) :
    decodeLoop n rgba (fuel + 1) (slots1 + 1) data idx px =
      (decodeLoop n rgba fuel (slots1 - min runRaw slots1) rest
          (if upd then idx.set (px1.hash_index n) px1 else idx) px1).map
        (fun s => (px1 :: (List.replicate (min runRaw slots1) px1 ++ s.1), s.2)) := by
  rw [decodeLoop, h]

theorem decodeLoop_cons_err (n : Nat) (rgba : Bool) (fuel slots1 : Nat)
    (data : List Nat) (idx : List Pixel) (px : Pixel) (e : QErr)
    (h : decodeOp n rgba data idx px = .error e) :
    decodeLoop n rgba (fuel + 1) (slots1 + 1) data idx px = .error e := by
  rw [decodeLoop, h]

theorem decodeLoop_cons_noupd (n : Nat) (rgba : Bool) (fuel slots1 : Nat)
    (data : List Nat) (idx : List Pixel) (px px1 : Pixel)
    (runRaw : Nat) (rest : List Nat)
    (h : decodeOp n rgba data idx px = .ok (px1, false, runRaw, rest)) :
    decodeLoop n rgba (fuel + 1) (slots1 + 1) data idx px =
      (decodeLoop n rgba fuel (slots1 - min runRaw slots1) rest idx px1).map
        (fun s => (px1 :: (List.replicate (min runRaw slots1) px1 ++ s.1), s.2)) := by
  rw [decodeLoop_cons n rgba fuel slots1 data idx px px1 false runRaw rest h]
  simp

theorem decodeLoop_cons_upd (n : Nat) (rgba : Bool) (fuel slots1 : Nat)
    (data : List Nat) (idx : List Pixel) (px px1 : Pixel)
    (runRaw : Nat) (rest : List Nat)
    (h : decodeOp n rgba data idx px = .ok (px1, true, runRaw, rest)) :
    decodeLoop n rgba (fuel + 1) (slots1 + 1) data idx px =
      (decodeLoop n rgba fuel (slots1 - min runRaw slots1) rest
          (idx.set (px1.hash_index n) px1) px1).map
        (fun s => (px1 :: (List.replicate (min runRaw slots1) px1 ++ s.1), s.2)) := by
  rw [decodeLoop_cons n rgba fuel slots1 data idx px px1 true runRaw rest h]
  simp

theorem decodeOp_index (n : Nat) (rgba : Bool) (b1 : Nat) (d : List Nat)
    (idx : List Pixel) (px : Pixel) (hb : b1 ≤ 63) :
    decodeOp n rgba (b1 :: d) idx px = .ok (idx.getD b1 Pixel.new, false, 0, d) := by
  simp only [decodeOp, QOI_OP_INDEX_END_eq]
  rw [if_pos hb]

theorem decodeOp_rgb (n : Nat) (rgba : Bool) (r g b : Nat) (d : List Nat)
    (idx : List Pixel) (px : Pixel) :
    decodeOp n rgba (QOI_OP_RGB :: r :: g :: b :: d) idx px =
      .ok (px.update_rgb r g b, true, 0, d) := by
  simp only [decodeOp, QOI_OP_INDEX_END_eq, QOI_OP_RGB]
  rw [if_neg (by omega : ¬ (254 : Nat) ≤ 63)]
  simp

theorem decodeOp_rgba (n : Nat) (rgba : Bool) (r g b a : Nat) (d : List Nat)
    (idx : List Pixel) (px : Pixel) (hrgba : rgba = true) :
    decodeOp n rgba (QOI_OP_RGBA :: r :: g :: b :: a :: d) idx px =
      .ok (px.update_rgba n r g b a, true, 0, d) := by
  subst hrgba
  simp only [decodeOp, QOI_OP_INDEX_END_eq, QOI_OP_RGB, QOI_OP_RGBA]
  rw [if_neg (by omega : ¬ (255 : Nat) ≤ 63),
    if_neg (by omega : ¬ (255 : Nat) = 254)]
  simp

theorem decodeOp_run (n : Nat) (rgba : Bool) (b1 : Nat) (d : List Nat)
    (idx : List Pixel) (px : Pixel) (h1 : 192 ≤ b1) (h2 : b1 ≤ 253) :
    decodeOp n rgba (b1 :: d) idx px = .ok (px, false, b1 % 64, d) := by
  simp only [decodeOp, QOI_OP_INDEX_END_eq, QOI_OP_RGB, QOI_OP_RGBA, QOI_OP_RUN,
    QOI_OP_RUN_END_eq]
  rw [if_neg (by omega : ¬ b1 ≤ 63), if_neg (by omega : ¬ b1 = 254),
    if_neg (fun h => absurd h.1 (by omega)), if_pos ⟨h1, h2⟩]

theorem decodeOp_diff (n : Nat) (rgba : Bool) (b1 : Nat) (d : List Nat)
    (idx : List Pixel) (px : Pixel) (h1 : 64 ≤ b1) (h2 : b1 ≤ 127) :
    decodeOp n rgba (b1 :: d) idx px = .ok (px.update_diff b1, true, 0, d) := by
  simp only [decodeOp, QOI_OP_INDEX_END_eq, QOI_OP_RGB, QOI_OP_RGBA, QOI_OP_RUN,
    QOI_OP_RUN_END_eq, QOI_OP_DIFF, QOI_OP_DIFF_END_eq]
  rw [if_neg (by omega : ¬ b1 ≤ 63), if_neg (by omega : ¬ b1 = 254),
    if_neg (fun h => absurd h.1 (by omega)),
    if_neg (fun h => absurd h.1 (by omega : ¬ (192 : Nat) ≤ b1)),
    if_pos ⟨h1, h2⟩]

theorem decodeOp_luma (n : Nat) (rgba : Bool) (b1 b2 : Nat) (d : List Nat)
    (idx : List Pixel) (px : Pixel) (h1 : 128 ≤ b1) (h2 : b1 ≤ 191) :
    decodeOp n rgba (b1 :: b2 :: d) idx px =
      .ok (px.update_luma b1 b2, true, 0, d) := by
  simp only [decodeOp, QOI_OP_INDEX_END_eq, QOI_OP_RGB, QOI_OP_RGBA, QOI_OP_RUN,
    QOI_OP_RUN_END_eq, QOI_OP_DIFF, QOI_OP_DIFF_END_eq, QOI_OP_LUMA,
    QOI_OP_LUMA_END_eq]
  rw [if_neg (by omega : ¬ b1 ≤ 63), if_neg (by omega : ¬ b1 = 254),
    if_neg (fun h => absurd h.1 (by omega)),
    if_neg (fun h => absurd h.1 (by omega : ¬ (192 : Nat) ≤ b1)),
    if_neg (fun h => absurd h.2 (by omega : ¬ b1 ≤ 127)),
    if_pos ⟨h1, h2⟩]

/-! ## Wrapping-arithmetic round-trip lemmas -/

theorem pixelExt {p q : Pixel} (hr : p.r = q.r) (hg : p.g = q.g)
    (hb : p.b = q.b) (ha : p.a = q.a) : p = q := by
  cases p
  cases q
  simp_all

theorem wadd_wsub_cancel (x y : Nat) (hx : x < 256) (hy : y < 256) :
    wadd8 x (wsub8 y x) = y := by
  simp only [wadd8, wsub8]
  omega

theorem wsub_wadd_cancel (v k : Nat) (h : v < 256) : wsub8 (wadd8 v k) k = v := by
  simp only [wadd8, wsub8]
  omega

theorem diff_comp (x y v2 : Nat) (_hx : x < 256) (hy : y < 256)
    (hv : v2 = wadd8 (wsub8 y x) 2) : wadd8 x (wsub8 v2 2) = y := by
  subst hv
  simp only [wadd8, wsub8]
  omega

theorem luma_comp (x y vg v8 : Nat) (_hx : x < 256) (hy : y < 256)
    (hv : v8 = wadd8 (wsub8 (wsub8 y x) vg) 8) :
    wadd8 x (wadd8 (wsub8 vg 8) v8) = y := by
  subst hv
  simp only [wadd8, wsub8]
  omega

theorem wadd8_lt (x y : Nat) : wadd8 x y < 256 := Nat.mod_lt _ (by decide)

theorem wsub8_lt (x y : Nat) : wsub8 x y < 256 := Nat.mod_lt _ (by decide)

/-- Decoding one literal opcode emitted by `encode_into` from the matching
decoder state reconstructs the matching pixel. -/
theorem encode_into_decodeOp (ne nd : Nat) (rgba : Bool) (p pp : Pixel)
    (hne : ne = 3 ∨ ne = 4) (hnd : nd = 3 ∨ nd = 4)
    (hrgba : ne = 4 → nd = 4 → rgba = true)
    (hp : GoodPx ne nd p) (hpp : GoodPx ne nd pp)
    (d : List Nat) (idx : List Pixel) :
    decodeOp nd rgba (p.encode_into ne pp ++ d) idx (phiP ne nd pp) =
      .ok (phiP ne nd p, true, 0, d) := by
  obtain ⟨hpr, hpg, hpb, hpa, hp3, hp43⟩ := hp
  obtain ⟨hppr, hppg, hppb, hppa, hpp3, hpp43⟩ := hpp
  by_cases hal : ne = 3 ∨ p.a = pp.a
  · simp only [Pixel.encode_into, if_pos hal]
    by_cases hdiff : wadd8 (wsub8 p.r pp.r) 2 ≤ 3 ∧ wadd8 (wsub8 p.g pp.g) 2 ≤ 3 ∧
        wadd8 (wsub8 p.b pp.b) 2 ≤ 3
    · rw [if_pos hdiff]
      obtain ⟨h1, h2, h3⟩ := hdiff
      rw [List.cons_append, List.nil_append,
        decodeOp_diff nd rgba _ d idx _ (by simp only [QOI_OP_DIFF]; omega)
          (by simp only [QOI_OP_DIFF]; omega)]
      refine congrArg _ ?_
      refine congrArg (fun q => (q, true, 0, d)) ?_
      have er : (QOI_OP_DIFF + 16 * wadd8 (wsub8 p.r pp.r) 2 +
          4 * wadd8 (wsub8 p.g pp.g) 2 + wadd8 (wsub8 p.b pp.b) 2) / 16 % 4 =
          wadd8 (wsub8 p.r pp.r) 2 := by
        simp only [QOI_OP_DIFF]
        omega
      have eg : (QOI_OP_DIFF + 16 * wadd8 (wsub8 p.r pp.r) 2 +
          4 * wadd8 (wsub8 p.g pp.g) 2 + wadd8 (wsub8 p.b pp.b) 2) / 4 % 4 =
          wadd8 (wsub8 p.g pp.g) 2 := by
        simp only [QOI_OP_DIFF]
        omega
      have eb : (QOI_OP_DIFF + 16 * wadd8 (wsub8 p.r pp.r) 2 +
          4 * wadd8 (wsub8 p.g pp.g) 2 + wadd8 (wsub8 p.b pp.b) 2) % 4 =
          wadd8 (wsub8 p.b pp.b) 2 := by
        simp only [QOI_OP_DIFF]
        omega
      refine pixelExt ?_ ?_ ?_ ?_
      · show wadd8 (phiP ne nd pp).r _ = (phiP ne nd p).r
        rw [phiP_r, phiP_r, er, diff_comp pp.r p.r _ hppr hpr rfl]
      · show wadd8 (phiP ne nd pp).g _ = (phiP ne nd p).g
        rw [phiP_g, phiP_g, eg, diff_comp pp.g p.g _ hppg hpg rfl]
      · show wadd8 (phiP ne nd pp).b _ = (phiP ne nd p).b
        rw [phiP_b, phiP_b, eb, diff_comp pp.b p.b _ hppb hpb rfl]
      · exact (phiP_a_eq ne nd p pp hal).symm
    · rw [if_neg hdiff]
      by_cases hluma : wadd8 (wsub8 p.g pp.g) 32 ≤ 63 ∧
          wadd8 (wsub8 (wsub8 p.r pp.r) (wsub8 p.g pp.g)) 8 ≤ 15 ∧
          wadd8 (wsub8 (wsub8 p.b pp.b) (wsub8 p.g pp.g)) 8 ≤ 15
      · rw [if_pos hluma]
        obtain ⟨h1, h2, h3⟩ := hluma
        rw [List.cons_append, List.cons_append, List.nil_append,
          decodeOp_luma nd rgba _ _ d idx _ (by simp only [QOI_OP_LUMA]; omega)
            (by simp only [QOI_OP_LUMA]; omega)]
        refine congrArg _ ?_
        refine congrArg (fun q => (q, true, 0, d)) ?_
        have eb1 : (QOI_OP_LUMA + wadd8 (wsub8 p.g pp.g) 32) % 64 =
            wadd8 (wsub8 p.g pp.g) 32 := by
          simp only [QOI_OP_LUMA]
          omega
        have ehi : (16 * wadd8 (wsub8 (wsub8 p.r pp.r) (wsub8 p.g pp.g)) 8 +
            wadd8 (wsub8 (wsub8 p.b pp.b) (wsub8 p.g pp.g)) 8) / 16 =
            wadd8 (wsub8 (wsub8 p.r pp.r) (wsub8 p.g pp.g)) 8 := by
          omega
        have elo : (16 * wadd8 (wsub8 (wsub8 p.r pp.r) (wsub8 p.g pp.g)) 8 +
            wadd8 (wsub8 (wsub8 p.b pp.b) (wsub8 p.g pp.g)) 8) % 16 =
            wadd8 (wsub8 (wsub8 p.b pp.b) (wsub8 p.g pp.g)) 8 := by
          omega
        have evg : wsub8 (wadd8 (wsub8 p.g pp.g) 32) 32 = wsub8 p.g pp.g :=
          wsub_wadd_cancel _ 32 (wsub8_lt _ _)
        refine pixelExt ?_ ?_ ?_ ?_
        · show wadd8 (phiP ne nd pp).r _ = (phiP ne nd p).r
          rw [phiP_r, phiP_r, eb1, ehi, evg,
            luma_comp pp.r p.r (wsub8 p.g pp.g) _ hppr hpr rfl]
        · show wadd8 (phiP ne nd pp).g _ = (phiP ne nd p).g
          rw [phiP_g, phiP_g, eb1, evg, wadd_wsub_cancel pp.g p.g hppg hpg]
        · show wadd8 (phiP ne nd pp).b _ = (phiP ne nd p).b
          rw [phiP_b, phiP_b, eb1, elo, evg,
            luma_comp pp.b p.b (wsub8 p.g pp.g) _ hppb hpb rfl]
        · exact (phiP_a_eq ne nd p pp hal).symm
      · rw [if_neg hluma]
        rw [List.cons_append, List.cons_append, List.cons_append,
          List.cons_append, List.nil_append, decodeOp_rgb]
        refine congrArg _ ?_
        refine congrArg (fun q => (q, true, 0, d)) ?_
        refine pixelExt ?_ ?_ ?_ ?_
        · rw [phiP_r]
          rfl
        · rw [phiP_g]
          rfl
        · rw [phiP_b]
          rfl
        · show (phiP ne nd pp).a = (phiP ne nd p).a
          exact (phiP_a_eq ne nd p pp hal).symm
  · have hne4 : ne = 4 := by
      rcases hne with h | h
      · exact absurd (Or.inl h) hal
      · exact h
    have hnd4 : nd = 4 := by
      rcases hnd with h | h
      · exact absurd (Or.inr ((hp43 hne4 h).trans (hpp43 hne4 h).symm)) hal
      · exact h
    subst hne4
    subst hnd4
    simp only [Pixel.encode_into, if_neg hal]
    rw [List.cons_append, List.cons_append, List.cons_append, List.cons_append,
      List.cons_append, List.nil_append, decodeOp_rgba _ _ _ _ _ _ _ _ _
        (hrgba rfl rfl)]
    refine congrArg _ ?_
    refine congrArg (fun q => (q, true, 0, d)) ?_
    refine pixelExt rfl rfl rfl ?_
    show (if 4 ≤ 4 then p.a else (phiP 4 4 pp).a) = (phiP 4 4 p).a
    simp [phiP, convD, Pixel.as_rgba]

theorem except_map_ok {γ α β : Type} (f : α → β) (x : α) :
    (Except.ok x : Except γ α).map f = .ok (f x) := rfl

theorem cons_replicate_shift {α : Type} (k : Nat) (x : α) (l : List α) :
    x :: (List.replicate k x ++ l) = List.replicate k x ++ x :: l := by
  induction k with
  | zero => rfl
  | succ k ihk =>
    rw [List.replicate_succ, List.cons_append, List.cons_append]
    exact congrArg (x :: ·) ihk

/-- Master simulation lemma: decoding the opcodes the encoder loop emits for
the remaining pixels (from a related decoder state, with the end marker and
arbitrary surplus appended) succeeds and yields the pending run followed by
the images of the remaining pixels under `phiP`.  Parameters cover both
canonical round trips (`ne = nd`), the 3-to-4 conversion, the 4-to-3
conversion for opaque-alpha images, and both run-flush modes. -/
theorem roundtrip_loop (ne nd : Nat) (rgba refMode : Bool)
    (hne : ne = 3 ∨ ne = 4) (hnd : nd = 3 ∨ nd = 4)
    (hrgba : ne = 4 → nd = 4 → rgba = true) :
    ∀ (pixels : List Pixel) (run i np fuel : Nat) (allowed : Bool)
      (idxE : List Pixel) (pp : Pixel) (hp : Nat) (extra : List Nat),
      (∀ q ∈ pixels, GoodPx ne nd q) →
      GoodPx ne nd pp →
      idxE.length = 256 →
      i + pixels.length = np →
      run ≤ 61 →
      (pixels = [] → run = 0) →
      (allowed = true → hp = (pp.as_rgba ne 0xff).hash_index 4 ∧
        idxE.getD hp Pixel.new = pp.as_rgba ne 0xff) →
      run + pixels.length ≤ fuel →
      decodeLoop nd rgba fuel (run + pixels.length)
          (encodeLoop ne refMode pixels i np idxE pp hp run allowed ++
            (QOI_PADDING ++ extra))
          (idxE.map (convD nd)) (phiP ne nd pp)
        = .ok (List.replicate run (phiP ne nd pp) ++ pixels.map (phiP ne nd),
            QOI_PADDING ++ extra) := by
  intro pixels
  induction pixels with
  | nil =>
    intro run i np fuel allowed idxE pp hp extra hgood hgpp hlen hi hrun hnil hallow hfuel
    have h0 : run = 0 := hnil rfl
    subst h0
    rw [encodeLoop, List.nil_append]
    simp only [List.length_nil, Nat.add_zero]
    rw [decodeLoop_pad,
      if_neg (by simp [QOI_PADDING, QOI_PADDING_SIZE]),
      if_neg (fun hcontra => hcontra (by
        show List.take QOI_PADDING_SIZE (QOI_PADDING ++ extra) = QOI_PADDING
        rw [show QOI_PADDING_SIZE = QOI_PADDING.length from rfl, List.take_left]))]
    simp
  | cons p rest ih =>
    intro run i np fuel allowed idxE pp hp extra hgood hgpp hlen hi hrun hnil hallow hfuel
    have hgp : GoodPx ne nd p := hgood p (List.mem_cons_self _ _)
    have hgrest : ∀ q ∈ rest, GoodPx ne nd q :=
      fun q hq => hgood q (List.mem_cons_of_mem _ hq)
    simp only [List.length_cons] at hi hfuel
    rw [encodeLoop]
    by_cases hpx : p = pp
    · rw [if_pos hpx]
      by_cases hfl : run + 1 = 62 ∨ i = np - 1
      · rw [if_pos hfl]
        obtain ⟨fuel1, rfl⟩ : ∃ f, fuel = f + 1 := ⟨fuel - 1, by omega⟩
        have hslots : run + (p :: rest).length = (run + rest.length) + 1 := by
          simp only [List.length_cons]
          omega
        rw [hslots, List.cons_append,
          decodeLoop_cons_noupd nd rgba fuel1 (run + rest.length) _ _ _ _ _ _
            (decodeOp_run nd rgba (QOI_OP_RUN + (run + 1 - 1)) _ _ _
              (by simp only [QOI_OP_RUN]; omega)
              (by simp only [QOI_OP_RUN]; omega))]
        have hmod : (QOI_OP_RUN + (run + 1 - 1)) % 64 = run := by
          simp only [QOI_OP_RUN]
          omega
        rw [hmod, Nat.min_eq_left (by omega), Nat.add_sub_cancel_left]
        have hIH := ih 0 (i + 1) np fuel1 allowed idxE pp hp extra hgrest hgpp
          hlen (by omega) (by omega) (fun _ => rfl) hallow (by omega)
        simp only [Nat.zero_add, List.replicate_zero, List.nil_append] at hIH
        rw [hIH, except_map_ok]
        rw [List.map_cons, hpx, cons_replicate_shift]
      · rw [if_neg hfl]
        have hr61 : run + 1 ≤ 61 := by
          rcases Nat.lt_or_ge run 61 with h | h
          · omega
          · exact absurd (Or.inl (by omega)) hfl
        have hrestne : rest = [] → run + 1 = 0 := by
          intro h
          subst h
          exact absurd (Or.inr (by simp at hi; omega)) hfl
        have hIH := ih (run + 1) (i + 1) np fuel allowed idxE pp hp extra hgrest
          hgpp hlen (by omega) hr61 hrestne hallow (by omega)
        have hslots : run + (p :: rest).length = (run + 1) + rest.length := by
          simp only [List.length_cons]
          omega
        rw [hslots, hIH, List.map_cons, hpx, List.replicate_succ',
          List.append_assoc, List.singleton_append]
    · rw [if_neg hpx]
      have hcore : ∀ fuelc, rest.length + 1 ≤ fuelc →
          decodeLoop nd rgba fuelc (rest.length + 1)
            ((if idxE.getD ((p.as_rgba ne 0xff).hash_index 4) Pixel.new =
                p.as_rgba ne 0xff then
              (QOI_OP_INDEX + (p.as_rgba ne 0xff).hash_index 4) ::
                encodeLoop ne refMode rest (i + 1) np idxE p
                  ((p.as_rgba ne 0xff).hash_index 4) 0 true
            else
              p.encode_into ne pp ++
                encodeLoop ne refMode rest (i + 1) np
                  (idxE.set ((p.as_rgba ne 0xff).hash_index 4)
                    (p.as_rgba ne 0xff))
                  p ((p.as_rgba ne 0xff).hash_index 4) 0 true) ++
              (QOI_PADDING ++ extra))
            (idxE.map (convD nd)) (phiP ne nd pp)
          = .ok ((p :: rest).map (phiP ne nd), QOI_PADDING ++ extra) := by
        intro fuelc hfc
        obtain ⟨fc1, rfl⟩ : ∃ f, fuelc = f + 1 := ⟨fuelc - 1, by omega⟩
        by_cases hhit : idxE.getD ((p.as_rgba ne 0xff).hash_index 4) Pixel.new =
            p.as_rgba ne 0xff
        · rw [if_pos hhit, List.cons_append,
            decodeLoop_cons_noupd nd rgba fc1 rest.length _ _ _ _ _ _
              (decodeOp_index nd rgba
                (QOI_OP_INDEX + (p.as_rgba ne 0xff).hash_index 4) _ _ _
                (by simp only [QOI_OP_INDEX, Nat.zero_add]
                    exact Nat.le_of_lt_succ (hash_index_lt 4 _)))]
          have hpx1 : (idxE.map (convD nd)).getD
              (QOI_OP_INDEX + (p.as_rgba ne 0xff).hash_index 4) Pixel.new =
              phiP ne nd p := by
            simp only [QOI_OP_INDEX, Nat.zero_add]
            rw [getD_map_conv, hhit]
            rfl
          rw [hpx1]
          have hIH := ih 0 (i + 1) np fc1 true idxE p
            ((p.as_rgba ne 0xff).hash_index 4) extra hgrest hgp hlen (by omega)
            (by omega) (fun _ => rfl) (fun _ => ⟨rfl, hhit⟩) (by omega)
          simp only [Nat.zero_add, List.replicate_zero, List.nil_append] at hIH
          rw [Nat.min_eq_left (by omega), Nat.sub_zero, hIH, except_map_ok]
          simp [List.map_cons]
        · rw [if_neg hhit, List.append_assoc,
            decodeLoop_cons_upd nd rgba fc1 rest.length _ _ _ _ _ _
              (encode_into_decodeOp ne nd rgba p pp hne hnd hrgba hgp hgpp _ _)]
          have hidx : (idxE.map (convD nd)).set ((phiP ne nd p).hash_index nd)
                (phiP ne nd p) =
              (idxE.set ((p.as_rgba ne 0xff).hash_index 4)
                (p.as_rgba ne 0xff)).map (convD nd) := by
            rw [List.map_set, hash_phiP ne nd p hne hnd hgp]
            rfl
          rw [hidx]
          have hIH := ih 0 (i + 1) np fc1 true
            (idxE.set ((p.as_rgba ne 0xff).hash_index 4) (p.as_rgba ne 0xff)) p
            ((p.as_rgba ne 0xff).hash_index 4) extra hgrest hgp
            (by rw [List.length_set]; exact hlen) (by omega) (by omega)
            (fun _ => rfl)
            (fun _ => ⟨rfl, getD_set_self_of_lt _ _ _ _ (by
              rw [hlen]
              have h64 := hash_index_lt 4 (p.as_rgba ne 0xff)
              omega)⟩)
            (by omega)
          simp only [Nat.zero_add, List.replicate_zero, List.nil_append] at hIH
          rw [Nat.min_eq_left (by omega), Nat.sub_zero, hIH, except_map_ok]
          simp [List.map_cons]
      by_cases hrun0 : run = 0
      · subst hrun0
        rw [show flushRun refMode 0 hp allowed = [] by simp [flushRun],
          List.nil_append]
        have hslots : 0 + (p :: rest).length = rest.length + 1 := by
          simp only [List.length_cons]
          omega
        rw [hslots, hcore fuel (by omega)]
        simp
      · by_cases hflIdx : refMode = false ∧ run = 1 ∧ allowed = true
        · obtain ⟨hrm, hr1, hal⟩ := hflIdx
          subst hrm
          subst hr1
          obtain ⟨hhp, hslot⟩ := hallow hal
          rw [show flushRun false 1 hp allowed = [QOI_OP_INDEX + hp] by
            simp [flushRun, hal]]
          obtain ⟨fuel1, rfl⟩ : ∃ f, fuel = f + 1 := ⟨fuel - 1, by omega⟩
          have hslots : 1 + (p :: rest).length = (rest.length + 1) + 1 := by
            simp only [List.length_cons]
            omega
          rw [hslots]
          simp only [List.cons_append, List.nil_append]
          rw [decodeLoop_cons_noupd nd rgba fuel1 (rest.length + 1) _ _ _ _ _ _
              (decodeOp_index nd rgba (QOI_OP_INDEX + hp) _ _ _
                (by simp only [QOI_OP_INDEX, Nat.zero_add, hhp]
                    exact Nat.le_of_lt_succ (hash_index_lt 4 _)))]
          have hpx1 : (idxE.map (convD nd)).getD (QOI_OP_INDEX + hp) Pixel.new =
              phiP ne nd pp := by
            simp only [QOI_OP_INDEX, Nat.zero_add]
            rw [getD_map_conv, hslot]
            rfl
          rw [hpx1, Nat.min_eq_left (by omega), Nat.sub_zero,
            hcore fuel1 (by omega), except_map_ok]
          simp
        · have hflush : flushRun refMode run hp allowed =
              [QOI_OP_RUN + (run - 1)] := by
            cases refMode with
            | true => simp [flushRun, hrun0]
            | false =>
              have hno : ¬ (run = 1 ∧ allowed = true) := by
                intro hcontra
                exact hflIdx ⟨rfl, hcontra⟩
              simp [flushRun, hrun0, hno]
          rw [hflush]
          obtain ⟨fuel1, rfl⟩ : ∃ f, fuel = f + 1 := ⟨fuel - 1, by omega⟩
          have hslots : run + (p :: rest).length = (run + rest.length) + 1 := by
            simp only [List.length_cons]
            omega
          rw [hslots]
          simp only [List.cons_append, List.nil_append]
          rw [decodeLoop_cons_noupd nd rgba fuel1 (run + rest.length) _ _ _ _ _ _
              (decodeOp_run nd rgba (QOI_OP_RUN + (run - 1)) _ _ _
                (by simp only [QOI_OP_RUN]; omega)
                (by simp only [QOI_OP_RUN]; omega))]
          have hmod : (QOI_OP_RUN + (run - 1)) % 64 = run - 1 := by
            simp only [QOI_OP_RUN]
            omega
          rw [hmod, Nat.min_eq_left (by omega),
            (show run + rest.length - (run - 1) = rest.length + 1 by omega),
            hcore fuel1 (by omega), except_map_ok]
          have : phiP ne nd pp ::
              (List.replicate (run - 1) (phiP ne nd pp) ++
                (p :: rest).map (phiP ne nd)) =
              List.replicate run (phiP ne nd pp) ++ (p :: rest).map (phiP ne nd) := by
            rw [← List.cons_append, ← List.replicate_succ,
              show run - 1 + 1 = run by omega]
          rw [this]

/-! ## Pixel-stream plumbing: rows, chunks and flattening -/

/-- Plain grouping of a byte buffer into `k` chunks of `n` bytes. -/
def groupsN (n : Nat) : Nat → List Nat → List (List Nat)
  | 0, _ => []
  | k + 1, l => l.take n :: groupsN n k (l.drop n)

theorem groupsN_length (n k : Nat) : ∀ l, (groupsN n k l).length = k := by
  induction k with
  | zero => intro l; rfl
  | succ k ihk => intro l; simp [groupsN, ihk]

theorem groupsN_append (n a : Nat) : ∀ (b : Nat) (l : List Nat),
    groupsN n (a + b) l = groupsN n a l ++ groupsN n b (l.drop (a * n)) := by
  induction a with
  | zero =>
    intro b l
    simp [groupsN]
  | succ a iha =>
    intro b l
    have hcomm : a + 1 + b = (a + b) + 1 := by omega
    rw [hcomm]
    show (groupsN n ((a + b) + 1) l) = _
    rw [groupsN, groupsN, List.cons_append, iha b (l.drop n)]
    rw [List.drop_drop, (show n + a * n = (a + 1) * n by ring)]

theorem groupsN_take (n : Nat) : ∀ (k : Nat) (l : List Nat),
    groupsN n k (l.take (k * n)) = groupsN n k l := by
  intro k
  induction k with
  | zero => intro l; rfl
  | succ k ihk =>
    intro l
    rw [groupsN, groupsN]
    refine congrArg₂ _ ?_ ?_
    · rw [List.take_take, Nat.min_eq_left (by nlinarith)]
    · rw [List.drop_take, (show (k + 1) * n - n = k * n by ring_nf; omega),
        ihk (l.drop n)]

theorem rowPixels_eq_groupsN (n : Nat) (_hn : 0 < n) : ∀ (w : Nat) (row : List Nat),
    row.length = w * n → rowPixels n w row = groupsN n w row := by
  intro w
  induction w with
  | zero => intro row hrow; rfl
  | succ w ihw =>
    intro row hrow
    rw [rowPixels, groupsN, if_neg (by
      rw [hrow]
      have : n ≤ (w + 1) * n := by nlinarith
      omega)]
    rw [ihw (row.drop n) (by rw [List.length_drop, hrow]; ring_nf; omega)]

theorem encodeRows_eq_groupsN (n w : Nat) (hn : 0 < n) (hw : 0 < w) :
    ∀ (h : Nat) (data : List Nat), data.length = h * (w * n) →
      encodeRows n (w * n) w h data = groupsN n (w * h) data := by
  intro h
  induction h with
  | zero =>
    intro data hd
    rw [Nat.mul_zero]
    rfl
  | succ h ihh =>
    intro data hd
    rw [encodeRows, if_neg (by
      rw [hd]
      intro hzero
      have hpos : 0 < (h + 1) * (w * n) := by positivity
      omega)]
    rw [List.take_take, Nat.min_self]
    rw [rowPixels_eq_groupsN n hn w (data.take (w * n))
      (by rw [List.length_take, hd]; have : w * n ≤ (h + 1) * (w * n) := by nlinarith
          omega)]
    rw [ihh (data.drop (w * n)) (by rw [List.length_drop, hd]; ring_nf; omega)]
    have hcomm : w * (h + 1) = w + w * h := by ring
    rw [hcomm, groupsN_append n w (w * h) data, groupsN_take n w data]

theorem groupsN_flatten (n : Nat) : ∀ (k : Nat) (l : List Nat),
    l.length = k * n → (groupsN n k l).flatten = l := by
  intro k
  induction k with
  | zero =>
    intro l hl
    have : l = [] := List.eq_nil_of_length_eq_zero (by omega)
    subst this
    rfl
  | succ k ihk =>
    intro l hl
    rw [groupsN, List.flatten_cons,
      ihk (l.drop n) (by rw [List.length_drop, hl]; ring_nf; omega),
      List.take_append_drop]

theorem groupsN_flatten_map (n : Nat) (g f : List Nat → List Nat)
    (hgf : ∀ c : List Nat, c.length = n → g c = f c) :
    ∀ (k : Nat) (l : List Nat), l.length = k * n →
      ((groupsN n k l).map g).flatten = ((groupsN n k l).map f).flatten := by
  intro k
  induction k with
  | zero => intro l hl; rfl
  | succ k ihk =>
    intro l hl
    rw [groupsN, List.map_cons, List.map_cons, List.flatten_cons,
      List.flatten_cons,
      hgf (l.take n) (by rw [List.length_take, hl]
                         exact Nat.min_eq_left (by nlinarith)),
      ihk (l.drop n) (by rw [List.length_drop, hl]; ring_nf; omega)]

theorem groupsN_mem_bytes (n : Nat) : ∀ (k : Nat) (l : List Nat) (c : List Nat),
    c ∈ groupsN n k l → ∀ x ∈ c, x ∈ l := by
  intro k
  induction k with
  | zero => intro l c hc; simp [groupsN] at hc
  | succ k ihk =>
    intro l c hc x hx
    rw [groupsN] at hc
    rcases List.mem_cons.mp hc with h | h
    · subst h
      exact List.take_subset _ _ hx
    · exact List.drop_subset _ _ (ihk (l.drop n) c h x hx)

theorem groupsN_chunk_length (n : Nat) (_hn : 0 < n) :
    ∀ (k : Nat) (l : List Nat), l.length = k * n →
      ∀ c ∈ groupsN n k l, c.length = n := by
  intro k
  induction k with
  | zero => intro l hl c hc; simp [groupsN] at hc
  | succ k ihk =>
    intro l hl c hc
    rw [groupsN] at hc
    rcases List.mem_cons.mp hc with h | h
    · subst h
      rw [List.length_take, hl]
      exact Nat.min_eq_left (by nlinarith)
    · exact ihk (l.drop n) (by rw [List.length_drop, hl]; ring_nf; omega) c h

theorem getD_lt_256 (l : List Nat) (i : Nat) (h : ∀ x ∈ l, x < 256) :
    l.getD i 0 < 256 := by
  rw [List.getD_eq_getElem?_getD]
  cases hx : l[i]? with
  | none => simp
  | some v =>
    have hv : v ∈ l := List.getElem?_mem hx
    simpa using h v hv

/-- The pixel read from a byte chunk is wellformed for the simulation. -/
theorem read_good (ne nd : Nat) (hne : ne = 3 ∨ ne = 4) (c : List Nat)
    (hbytes : ∀ x ∈ c, x < 256)
    (halpha : ne = 4 → nd = 3 → c.getD 3 0 = 255) :
    GoodPx ne nd (Pixel.read ne (encInitPrev ne) c) := by
  refine ⟨getD_lt_256 c 0 hbytes, getD_lt_256 c 1 hbytes, getD_lt_256 c 2 hbytes,
    ?_, ?_, ?_⟩
  · rcases hne with h | h <;> subst h
    · simp [Pixel.read, encInitPrev, Pixel.with_a, Pixel.new]
    · simpa [Pixel.read] using getD_lt_256 c 3 hbytes
  · intro h3
    subst h3
    simp [Pixel.read, encInitPrev, Pixel.with_a, Pixel.new]
  · intro h4 hd3
    subst h4
    simpa [Pixel.read] using halpha rfl hd3

theorem encInitPrev_good (ne nd : Nat) (hne : ne = 3 ∨ ne = 4) :
    GoodPx ne nd (encInitPrev ne) := by
  rcases hne with h | h <;> subst h <;>
    simp [GoodPx, encInitPrev, Pixel.with_a, Pixel.new]

/-- Per-chunk output bytes, canonical channels: the decoded pixel writes the
chunk back. -/
theorem chunk_bytes_canonical (n : Nat) (hn : n = 3 ∨ n = 4) (c : List Nat)
    (hc : c.length = n) :
    pixelBytes n (phiP n n (Pixel.read n (encInitPrev n) c)) = c := by
  rcases hn with h | h <;> subst h
  · match c, hc with
    | [x, y, z], _ =>
      simp [pixelBytes, phiP, convD, Pixel.read, Pixel.as_rgba, encInitPrev,
        Pixel.with_a, Pixel.new, List.getD]
  · match c, hc with
    | [x, y, z, t], _ =>
      simp [pixelBytes, phiP, convD, Pixel.read, Pixel.as_rgba, encInitPrev,
        Pixel.with_a, Pixel.new, List.getD]

/-- Per-chunk output bytes, 3-channel source decoded at 4 channels: the chunk
with an opaque alpha appended. -/
theorem chunk_bytes_extend (c : List Nat) (hc : c.length = 3) :
    pixelBytes 4 (phiP 3 4 (Pixel.read 3 (encInitPrev 3) c)) = c ++ [255] := by
  match c, hc with
  | [x, y, z], _ =>
    simp [pixelBytes, phiP, convD, Pixel.read, Pixel.as_rgba, encInitPrev,
      Pixel.with_a, Pixel.new, List.getD]

/-- Per-chunk output bytes, 4-channel source decoded at 3 channels: the alpha
byte is dropped. -/
theorem chunk_bytes_proj (c : List Nat) (hc : c.length = 4) :
    pixelBytes 3 (phiP 4 3 (Pixel.read 4 (encInitPrev 4) c)) = c.take 3 := by
  match c, hc with
  | [x, y, z, t], _ =>
    simp [pixelBytes, phiP, convD, Pixel.read, Pixel.as_rgba, encInitPrev,
      Pixel.with_a, Pixel.new, List.getD]

/-! ## Header round trip -/

theorem headerEncode_explicit (w h ch cs : Nat) :
    headerEncode w h ch cs =
      [0x71, 0x6f, 0x69, 0x66,
        w / 2 ^ 24 % 256, w / 2 ^ 16 % 256, w / 2 ^ 8 % 256, w % 256,
        h / 2 ^ 24 % 256, h / 2 ^ 16 % 256, h / 2 ^ 8 % 256, h % 256,
        ch, cs] := by
  simp [headerEncode, be32, QOI_MAGIC_eq]

theorem headerEncode_length (w h ch cs : Nat) :
    (headerEncode w h ch cs).length = QOI_HEADER_SIZE := by
  rw [headerEncode_explicit]
  rfl

theorem be32val_be32 (x : Nat) (hx : x < 2 ^ 32) :
    be32val (x / 2 ^ 24 % 256) (x / 2 ^ 16 % 256) (x / 2 ^ 8 % 256) (x % 256) =
      x := by
  simp only [be32val]
  norm_num
  omega

theorem headerDecode_encode (w h ch cs : Nat) (body : List Nat)
    (hw : 0 < w) (hw32 : w < 2 ^ 32) (hh : 0 < h) (hh32 : h < 2 ^ 32)
    (hmax : w * h ≤ QOI_PIXELS_MAX) (hch : ch = 3 ∨ ch = 4)
    (hcs : cs = 0 ∨ cs = 1) :
    headerDecode (headerEncode w h ch cs ++ body) = .ok ⟨w, h, ch, cs⟩ := by
  rw [headerEncode_explicit]
  rw [headerDecode]
  rw [if_neg (by simp [QOI_HEADER_SIZE])]
  simp only [List.cons_append, List.nil_append, List.getD_cons_succ,
    List.getD_cons_zero]
  rw [if_neg (by rcases hch with h | h <;> simp [h])]
  rw [if_neg (by rcases hcs with h | h <;> simp [h])]
  rw [if_neg (by
    rw [be32val, QOI_MAGIC_eq]
    norm_num)]
  rw [be32val_be32 w hw32, be32val_be32 h hh32]
  rw [headerTryNew, if_neg (by omega), if_neg (by simp [QOI_PIXELS_MAX] at hmax ⊢; omega)]

theorem phiP_init (ne nd : Nat) (hne : ne = 3 ∨ ne = 4) (hnd : nd = 3 ∨ nd = 4) :
    phiP ne nd (encInitPrev ne) = Pixel.new.with_a nd 0xff := by
  rcases hne with h | h <;> rcases hnd with h2 | h2 <;> subst h <;> subst h2 <;>
    decide

theorem encInitIndex_conv (nd : Nat) :
    encInitIndex.map (convD nd) = List.replicate 256 Pixel.new := by
  rw [encInitIndex, List.map_replicate, convD_new]

theorem decodeImplSliceAll_flag (req C : Nat) (hC : C = 3 ∨ C = 4)
    (hreq : req = 3 ∨ req = 4) (data : List Nat) (outLen : Nat) :
    decodeImplSliceAll req C data outLen =
      decodeImplSlice req (decide (C = 4)) data outLen := by
  rcases hC with h | h <;> rcases hreq with h2 | h2 <;> subst h <;> subst h2 <;>
    simp [decodeImplSliceAll]

/-- Shared top-level round trip: encoding via `Encoder::new` (channels
inferred) and decoding via `decode_to_vec` with a requested channel count
`req` reproduces, pixel for pixel, the image of the source chunks under the
channel conversion `phiP`. -/
theorem roundtrip_core (refMode : Bool) (data : List Nat) (w h C req : Nat)
    (copt : Option Nat) (hcopt : copt.getD C = req)
    (hC : C = 3 ∨ C = 4) (hreq : req = 3 ∨ req = 4)
    (hw : 1 ≤ w) (hh : 1 ≤ h) (hmax : w * h ≤ QOI_PIXELS_MAX)
    (hlen : data.length = w * h * C)
    (hbytes : ∀ x ∈ data, x < 256)
    (halpha : C = 4 → req = 3 → ∀ c ∈ groupsN 4 (w * h) data, c.getD 3 0 = 255) :
    qoiEncodeM refMode data w h =
      .ok (headerEncode w h C 0 ++ encodeImpl C refMode data w h (w * C)) ∧
    qoiDecodeToVecWith copt
        (headerEncode w h C 0 ++ encodeImpl C refMode data w h (w * C)) =
      .ok (⟨w, h, C, 0⟩,
        ((groupsN C (w * h) data).map
          (fun c => pixelBytes req (phiP C req (Pixel.read C (encInitPrev C) c)))).flatten) := by
  have hC0 : 0 < C := by rcases hC with h | h <;> omega
  have hreq0 : 0 < req := by rcases hreq with h | h <;> omega
  have hmaxN : w * h ≤ 400000000 := by simpa [QOI_PIXELS_MAX] using hmax
  have hwle : w ≤ w * h := Nat.le_mul_of_pos_right w (by omega)
  have hhle : h ≤ w * h := Nat.le_mul_of_pos_left h (by omega)
  have hstride : data.length / h = w * C := by
    rw [hlen, (show w * h * C = h * (w * C) by ring),
      Nat.mul_div_cancel_left _ (by omega)]
  have hn : (if w * C = w * 3 then 3 else 4) = C := by
    rcases hC with h3 | h4
    · subst h3
      rw [if_pos rfl]
    · subst h4
      rw [if_neg (by omega)]
  have henc : qoiEncodeM refMode data w h =
      .ok (headerEncode w h C 0 ++ encodeImpl C refMode data w h (w * C)) := by
    rw [qoiEncodeM, if_neg (by omega : ¬ h = 0)]
    simp only [hstride, hn]
    rw [if_neg (by omega : ¬ data.length ≠ w * h * C)]
    rw [headerTryNew, if_neg (by omega), if_neg (by
      simp only [QOI_PIXELS_MAX]
      omega)]
  refine ⟨henc, ?_⟩
  -- pixel stream
  have hrows : encodeRows C (w * C) w h data = groupsN C (w * h) data :=
    encodeRows_eq_groupsN C w hC0 (by omega) h data (by rw [hlen]; ring)
  have hPlen : ((groupsN C (w * h) data).map
      (Pixel.read C (encInitPrev C))).length = w * h := by
    rw [List.length_map, groupsN_length]
  have hgood : ∀ q ∈ (groupsN C (w * h) data).map (Pixel.read C (encInitPrev C)),
      GoodPx C req q := by
    intro q hq
    obtain ⟨c, hc, rfl⟩ := List.mem_map.mp hq
    refine read_good C req hC c
      (fun x hx => hbytes x (groupsN_mem_bytes C (w * h) data c hc x hx)) ?_
    intro h4 h3
    subst h4
    exact halpha rfl h3 c hc
  -- the decode side
  rw [qoiDecodeToVecWith,
    headerDecode_encode w h C 0 _ (by omega) (by omega) (by omega) (by omega)
      hmax hC (Or.inl rfl)]
  simp only []
  rw [(show QOI_HEADER_SIZE = (headerEncode w h C 0).length by
    rw [headerEncode_length]), List.drop_left]
  have hchan : (Option.getD copt (QHeader.mk w h C 0).channels) = req := hcopt
  rw [hchan]
  rw [decodeImplSliceAll_flag req C hC hreq]
  rw [decodeImplSlice,
    if_neg (by
      show ¬ (QHeader.mk w h C 0).width * (QHeader.mk w h C 0).height * req % req ≠ 0
      show ¬ w * h * req % req ≠ 0
      simp [Nat.mul_mod_left]),
    (show (QHeader.mk w h C 0).width * (QHeader.mk w h C 0).height * req / req =
      w * h by
      show w * h * req / req = w * h
      exact Nat.mul_div_cancel _ (by omega))]
  rw [encodeImpl]
  simp only [hrows]
  have hmaster := roundtrip_loop C req (decide (C = 4)) refMode hC hreq
    (by intro h4 hr4; rw [h4]; rfl)
    ((groupsN C (w * h) data).map (Pixel.read C (encInitPrev C)))
    0 0 (w * h) (w * h) false encInitIndex (encInitPrev C)
    ((encInitPrev C).hash_index C) []
    hgood (encInitPrev_good C req hC)
    (by rw [encInitIndex, List.length_replicate])
    (by rw [hPlen]; omega) (by omega) (fun _ => rfl)
    (fun hcontra => absurd hcontra (by simp)) (by rw [hPlen]; omega)
  rw [List.append_nil] at hmaster
  simp only [Nat.zero_add, List.replicate_zero, List.nil_append, hPlen] at hmaster
  rw [encInitIndex_conv, phiP_init C req hC hreq] at hmaster
  rw [hmaster]
  simp only [Except.map, flattenBytes, List.map_map]
  rfl

/-! ## Encoded-size bound -/

theorem flushRun_length (refMode : Bool) (run hp : Nat) (allowed : Bool) :
    (flushRun refMode run hp allowed).length ≤ if run = 0 then 0 else 1 := by
  unfold flushRun
  split_ifs <;> simp

theorem encode_into_length (n : Nat) (p pp : Pixel) (hn : n = 3 ∨ n = 4) :
    (p.encode_into n pp).length ≤ n + 1 := by
  have h3 : 3 ≤ n := by rcases hn with h | h <;> omega
  rw [Pixel.encode_into]
  by_cases h1 : n = 3 ∨ p.a = pp.a
  · rw [if_pos h1]
    by_cases h2 : wadd8 (wsub8 p.r pp.r) 2 ≤ 3 ∧ wadd8 (wsub8 p.g pp.g) 2 ≤ 3 ∧
        wadd8 (wsub8 p.b pp.b) 2 ≤ 3
    · rw [if_pos h2]
      simp only [List.length_cons, List.length_nil]
      omega
    · rw [if_neg h2]
      by_cases h4 : wadd8 (wsub8 p.g pp.g) 32 ≤ 63 ∧
          wadd8 (wsub8 (wsub8 p.r pp.r) (wsub8 p.g pp.g)) 8 ≤ 15 ∧
          wadd8 (wsub8 (wsub8 p.b pp.b) (wsub8 p.g pp.g)) 8 ≤ 15
      · rw [if_pos h4]
        simp only [List.length_cons, List.length_nil]
        omega
      · rw [if_neg h4]
        simp only [List.length_cons, List.length_nil]
        omega
  · rw [if_neg h1]
    have hn4 : n = 4 := by
      rcases hn with h | h
      · exact absurd (Or.inl h) h1
      · exact h
    subst hn4
    simp only [List.length_cons, List.length_nil]
    omega

theorem encodeLoop_length (n : Nat) (refMode : Bool) (hn : n = 3 ∨ n = 4) :
    ∀ (pixels : List Pixel) (i np : Nat) (idxE : List Pixel) (pp : Pixel)
      (hp run : Nat) (allowed : Bool), run ≤ 61 →
      (encodeLoop n refMode pixels i np idxE pp hp run allowed).length ≤
        pixels.length * (n + 1) + (if run = 0 then 0 else 1) := by
  have h3 : 3 ≤ n := by rcases hn with h | h <;> omega
  intro pixels
  induction pixels with
  | nil =>
    intro i np idxE pp hp run allowed hrun
    rw [encodeLoop]
    simp
  | cons p rest ih =>
    intro i np idxE pp hp run allowed hrun
    have hpot : (0 : Nat) ≤ (if run = 0 then 0 else 1) := by omega
    have hexp : (p :: rest).length * (n + 1) =
        rest.length * (n + 1) + (n + 1) := by
      simp only [List.length_cons]
      ring
    rw [encodeLoop, hexp]
    by_cases hpx : p = pp
    · rw [if_pos hpx]
      by_cases hfl : run + 1 = 62 ∨ i = np - 1
      · rw [if_pos hfl]
        have hr := ih (i + 1) np idxE pp hp 0 allowed (by omega)
        rw [if_pos rfl] at hr
        simp only [List.length_cons]
        omega
      · rw [if_neg hfl]
        have hr := ih (i + 1) np idxE pp hp (run + 1) allowed (by
          rcases Nat.lt_or_ge run 61 with h | h
          · omega
          · exact absurd (Or.inl (by omega)) hfl)
        rw [if_neg (by omega : ¬ run + 1 = 0)] at hr
        omega
    · rw [if_neg hpx]
      have hflush := flushRun_length refMode run hp allowed
      have hflush1 : (flushRun refMode run hp allowed).length ≤ 1 := by
        by_cases hr0 : run = 0
        · rw [if_pos hr0] at hflush
          omega
        · rw [if_neg hr0] at hflush
          omega
      by_cases hhit : idxE.getD ((p.as_rgba n 0xff).hash_index 4) Pixel.new =
          p.as_rgba n 0xff
      · rw [if_pos hhit]
        have hr := ih (i + 1) np idxE p ((p.as_rgba n 0xff).hash_index 4) 0 true
          (by omega)
        rw [if_pos rfl] at hr
        rw [List.length_append, List.length_cons]
        omega
      · rw [if_neg hhit]
        have hr := ih (i + 1) np
          (idxE.set ((p.as_rgba n 0xff).hash_index 4) (p.as_rgba n 0xff)) p
          ((p.as_rgba n 0xff).hash_index 4) 0 true (by omega)
        rw [if_pos rfl] at hr
        have hinto := encode_into_length n p pp hn
        rw [List.length_append, List.length_append]
        omega

/-- `encode_max_len` evaluates without saturation on valid dimensions. -/
theorem encode_max_len_eq (w h C : Nat) (hC : C = 3 ∨ C = 4)
    (hmax : w * h ≤ QOI_PIXELS_MAX) :
    encode_max_len w h C = 14 + w * h * (C + 1) + 8 := by
  have hm : w * h ≤ 400000000 := by simpa [QOI_PIXELS_MAX] using hmax
  have h1 : satMul64 w h = w * h := by
    rw [satMul64]
    exact Nat.min_eq_left (by omega)
  have h2 : satMul64 (w * h) C = w * h * C := by
    rw [satMul64]
    refine Nat.min_eq_left ?_
    rcases hC with h | h <;> subst h <;> omega
  rw [encode_max_len, h1, h2, QOI_HEADER_SIZE, QOI_PADDING_SIZE]
  have : w * h * (C + 1) = w * h * C + w * h := by ring
  omega

/-! ## Claim theorems -/

/-- `Encoder::new(data, w, h).encode_to_vec()` succeeds on a valid image and
its channel inference recovers `C` from `len = w * h * C`. -/
theorem qoiEncodeM_ok (refMode : Bool) (data : List Nat) (w h C : Nat)
    (hC : C = 3 ∨ C = 4) (hw : 1 ≤ w) (hh : 1 ≤ h)
    (hmax : w * h ≤ QOI_PIXELS_MAX) (hlen : data.length = w * h * C) :
    qoiEncodeM refMode data w h =
      .ok (headerEncode w h C 0 ++ encodeImpl C refMode data w h (w * C)) := by
  have hstride : data.length / h = w * C := by
    rw [hlen, (show w * h * C = h * (w * C) by ring),
      Nat.mul_div_cancel_left _ (by omega)]
  have hn : (if w * C = w * 3 then 3 else 4) = C := by
    rcases hC with h3 | h4
    · subst h3
      rw [if_pos rfl]
    · subst h4
      rw [if_neg (by omega)]
  rw [qoiEncodeM, if_neg (by omega : ¬ h = 0)]
  simp only [hstride, hn]
  rw [if_neg (by omega : ¬ data.length ≠ w * h * C)]
  rw [headerTryNew, if_neg (by omega), if_neg (by
    simp only [QOI_PIXELS_MAX]
    simp only [QOI_PIXELS_MAX] at hmax
    omega)]

/-- C1: for every pixel buffer with `w ≥ 1`, `h ≥ 1`, `w*h ≤ 400000000`,
`C ∈ {3,4}` and `len(pixels) = w*h*C`, decoding the bytes produced by the
encoder (same channel count, recovered by the encoder's channel inference)
yields exactly the original pixels. -/
theorem c1_encode_decode_roundtrip (data : List Nat) (w h C : Nat)
    (hC : C = 3 ∨ C = 4) (hw : 1 ≤ w) (hh : 1 ≤ h)
    (hmax : w * h ≤ 400000000) (hlen : data.length = w * h * C)
    (hbytes : ∀ x ∈ data, x < 256) :
    ∃ out, qoiEncode data w h = .ok out ∧
      qoiDecodeToVec out = .ok (⟨w, h, C, 0⟩, data) := by
  have hcore := roundtrip_core false data w h C C none rfl hC hC hw hh
    (by simpa [QOI_PIXELS_MAX] using hmax) hlen hbytes
    (by intro h4 h3c
        rw [h4] at h3c
        exact absurd h3c (by decide))
  obtain ⟨henc, hdec⟩ := hcore
  have hflat : ((groupsN C (w * h) data).map
      (fun c => pixelBytes C (phiP C C (Pixel.read C (encInitPrev C) c)))).flatten
      = data := by
    rw [groupsN_flatten_map C _ (fun c => c)
      (fun c hc => chunk_bytes_canonical C hC c hc) (w * h) data hlen]
    rw [List.map_id']
    exact groupsN_flatten C (w * h) data hlen
  rw [hflat] at hdec
  exact ⟨_, henc, hdec⟩

/-- C1 witness at a concrete 1-by-1 3-channel image. -/
theorem c1_roundtrip_witness :
    ∃ out, qoiEncode [1, 2, 3] 1 1 = .ok out ∧
      qoiDecodeToVec out = .ok (⟨1, 1, 3, 0⟩, [1, 2, 3]) :=
  c1_encode_decode_roundtrip [1, 2, 3] 1 1 3 (Or.inl rfl) (by decide) (by decide)
    (by decide) (by decide) (by decide)

/-- C2: on every valid input the encoded length (header, opcodes, end marker)
is bounded by `encode_max_len`, which equals `14 + w*h*(C+1) + 8`. -/
theorem c2_encode_len_bound (data : List Nat) (w h C : Nat)
    (hC : C = 3 ∨ C = 4) (hw : 1 ≤ w) (hh : 1 ≤ h)
    (hmax : w * h ≤ 400000000) (hlen : data.length = w * h * C) :
    ∃ out, qoiEncode data w h = .ok out ∧
      out.length ≤ encode_max_len w h C ∧
      encode_max_len w h C = 14 + w * h * (C + 1) + 8 := by
  have hC0 : 0 < C := by rcases hC with h | h <;> omega
  have hmaxP : w * h ≤ QOI_PIXELS_MAX := by simpa [QOI_PIXELS_MAX] using hmax
  have henc := qoiEncodeM_ok false data w h C hC hw hh hmaxP hlen
  refine ⟨_, henc, ?_, encode_max_len_eq w h C hC hmaxP⟩
  rw [encode_max_len_eq w h C hC hmaxP]
  rw [List.length_append]
  rw [headerEncode_length]
  rw [encodeImpl]
  simp only [encodeRows_eq_groupsN C w hC0 (by omega) h data (by rw [hlen]; ring)]
  rw [List.length_append]
  have hPlen : ((groupsN C (w * h) data).map
      (Pixel.read C (encInitPrev C))).length = w * h := by
    rw [List.length_map, groupsN_length]
  have hbound := encodeLoop_length C false hC
    ((groupsN C (w * h) data).map (Pixel.read C (encInitPrev C)))
    0 (w * h) encInitIndex (encInitPrev C) ((encInitPrev C).hash_index C) 0
    false (by omega)
  rw [if_pos rfl, hPlen] at hbound
  have hpad : QOI_PADDING.length = 8 := rfl
  have hhs : QOI_HEADER_SIZE = 14 := rfl
  have hmul : w * h * (C + 1) = w * h * C + w * h := by ring
  omega

/-- C2 witness at a concrete 1-by-1 3-channel image. -/
theorem c2_encode_len_bound_witness :
    ∃ out, qoiEncode [1, 2, 3] 1 1 = .ok out ∧
      out.length ≤ encode_max_len 1 1 3 ∧
      encode_max_len 1 1 3 = 14 + 1 * 1 * (3 + 1) + 8 :=
  c2_encode_len_bound [1, 2, 3] 1 1 3 (Or.inl rfl) (by decide) (by decide)
    (by decide) (by decide)

/-- C5 (amended): decoding with a requested channel count different from the
header's converts losslessly in the 3-to-4 direction (alpha `0xFF` appended
per pixel), and in the 4-to-3 direction (alpha bytes dropped) provided every
alpha byte of the source image is `0xFF`. -/
theorem c5_channel_conversion :
    (∀ (data : List Nat) (w h : Nat), 1 ≤ w → 1 ≤ h → w * h ≤ 400000000 →
      data.length = w * h * 3 → (∀ x ∈ data, x < 256) →
      ∃ out, qoiEncode data w h = .ok out ∧
        qoiDecodeToVecWith (some 4) out =
          .ok (⟨w, h, 3, 0⟩,
            ((groupsN 3 (w * h) data).map (fun c => c ++ [255])).flatten)) ∧
    (∀ (data : List Nat) (w h : Nat), 1 ≤ w → 1 ≤ h → w * h ≤ 400000000 →
      data.length = w * h * 4 → (∀ x ∈ data, x < 256) →
      (∀ c ∈ groupsN 4 (w * h) data, c.getD 3 0 = 255) →
      ∃ out, qoiEncode data w h = .ok out ∧
        qoiDecodeToVecWith (some 3) out =
          .ok (⟨w, h, 4, 0⟩,
            ((groupsN 4 (w * h) data).map (fun c => c.take 3)).flatten)) := by
  constructor
  · intro data w h hw hh hmax hlen hbytes
    have hcore := roundtrip_core false data w h 3 4 (some 4) rfl (Or.inl rfl)
      (Or.inr rfl) hw hh (by simpa [QOI_PIXELS_MAX] using hmax) hlen hbytes
      (by intro hcontra; exact absurd hcontra (by decide))
    obtain ⟨henc, hdec⟩ := hcore
    have hflat : ((groupsN 3 (w * h) data).map
        (fun c => pixelBytes 4 (phiP 3 4 (Pixel.read 3 (encInitPrev 3) c)))).flatten
        = ((groupsN 3 (w * h) data).map (fun c => c ++ [255])).flatten :=
      groupsN_flatten_map 3 _ (fun c => c ++ [255])
        (fun c hc => chunk_bytes_extend c hc) (w * h) data hlen
    rw [hflat] at hdec
    exact ⟨_, henc, hdec⟩
  · intro data w h hw hh hmax hlen hbytes halpha
    have hcore := roundtrip_core false data w h 4 3 (some 3) rfl (Or.inr rfl)
      (Or.inl rfl) hw hh (by simpa [QOI_PIXELS_MAX] using hmax) hlen hbytes
      (fun _ _ => halpha)
    obtain ⟨henc, hdec⟩ := hcore
    have hflat : ((groupsN 4 (w * h) data).map
        (fun c => pixelBytes 3 (phiP 4 3 (Pixel.read 4 (encInitPrev 4) c)))).flatten
        = ((groupsN 4 (w * h) data).map (fun c => c.take 3)).flatten :=
      groupsN_flatten_map 4 _ (fun c => c.take 3)
        (fun c hc => chunk_bytes_proj c hc) (w * h) data hlen
    rw [hflat] at hdec
    exact ⟨_, henc, hdec⟩

/-- C5 witness: both conversion directions at concrete 1-by-1 images. -/
theorem c5_channel_conversion_witness :
    (∃ out, qoiEncode [1, 2, 3] 1 1 = .ok out ∧
      qoiDecodeToVecWith (some 4) out =
        .ok (⟨1, 1, 3, 0⟩,
          ((groupsN 3 1 [1, 2, 3]).map (fun c => c ++ [255])).flatten)) ∧
    (∃ out, qoiEncode [1, 2, 3, 255] 1 1 = .ok out ∧
      qoiDecodeToVecWith (some 3) out =
        .ok (⟨1, 1, 4, 0⟩,
          ((groupsN 4 1 [1, 2, 3, 255]).map (fun c => c.take 3)).flatten)) :=
  ⟨c5_channel_conversion.1 [1, 2, 3] 1 1 (by decide) (by decide) (by decide)
      (by decide) (by decide),
    c5_channel_conversion.2 [1, 2, 3, 255] 1 1 (by decide) (by decide)
      (by decide) (by decide) (by decide) (by decide)⟩

/-- C5 counterexample: a 3-pixel 4-channel image with alpha `40`; decoding
its encoding with requested channels 3 yields `(0,0,0)` for the third pixel
instead of its RGB bytes `(10,20,30)` — the encoder emits `QOI_OP_INDEX|12`
(the hash uses the true alpha), but the 3-channel decoder's table keyed with
alpha forced to `0xFF` never stored that slot. -/
theorem c5_channel_conversion_counterexample :
    qoiEncode [10, 20, 30, 40, 1, 2, 3, 40, 10, 20, 30, 40] 3 1 =
      .ok [0x71, 0x6f, 0x69, 0x66, 0, 0, 0, 3, 0, 0, 0, 1, 4, 0,
        0xff, 10, 20, 30, 40, 0xfe, 1, 2, 3, 12, 0, 0, 0, 0, 0, 0, 0, 1] ∧
    qoiDecodeToVecWith (some 3)
        [0x71, 0x6f, 0x69, 0x66, 0, 0, 0, 3, 0, 0, 0, 1, 4, 0,
          0xff, 10, 20, 30, 40, 0xfe, 1, 2, 3, 12, 0, 0, 0, 0, 0, 0, 0, 1] =
      .ok (⟨3, 1, 4, 0⟩, [10, 20, 30, 1, 2, 3, 0, 0, 0]) ∧
    ((groupsN 4 3 [10, 20, 30, 40, 1, 2, 3, 40, 10, 20, 30, 40]).map
        (fun c => c.take 3)).flatten = [10, 20, 30, 1, 2, 3, 10, 20, 30] ∧
    ([10, 20, 30, 1, 2, 3, 0, 0, 0] : List Nat) ≠
      [10, 20, 30, 1, 2, 3, 10, 20, 30] := by
  refine ⟨by decide, by decide, by decide, by decide⟩

/-- Spec-literal variant of the encoder loop for C6: the run flush emits
`QOI_OP_INDEX | hash_prev` exactly when `run = 1` and the index slot at
`hash_prev` already holds the previous pixel (the claim's wording), instead
of the source's `run == 1 && index_allowed`; everything else is identical
to `encodeLoop`. -/
def encodeLoopAlt (n : Nat) (refMode : Bool) :
    List Pixel → Nat → Nat → List Pixel → Pixel → Nat → Nat → List Nat
  | [], _, _, _, _, _, _ => []
  | px :: rest, i, np, index, pp, hp, run =>
    if px = pp then
      if run + 1 = 62 ∨ i = np - 1 then
        (QOI_OP_RUN + (run + 1 - 1)) ::
          encodeLoopAlt n refMode rest (i + 1) np index pp hp 0
      else
        encodeLoopAlt n refMode rest (i + 1) np index pp hp (run + 1)
    else
      (if run ≠ 0 then
        if refMode then [QOI_OP_RUN + (run - 1)]
        else if run = 1 ∧ index.getD hp Pixel.new = pp.as_rgba n 0xff then
          [QOI_OP_INDEX + hp]
        else [QOI_OP_RUN + (run - 1)]
      else []) ++
        (if index.getD ((px.as_rgba n 0xff).hash_index 4) Pixel.new =
            px.as_rgba n 0xff then
          (QOI_OP_INDEX + (px.as_rgba n 0xff).hash_index 4) ::
            encodeLoopAlt n refMode rest (i + 1) np index px
              ((px.as_rgba n 0xff).hash_index 4) 0
        else
          px.encode_into n pp ++
            encodeLoopAlt n refMode rest (i + 1) np
              (index.set ((px.as_rgba n 0xff).hash_index 4) (px.as_rgba n 0xff))
              px ((px.as_rgba n 0xff).hash_index 4) 0)

theorem encInitIndex_getD (hp : Nat) :
    encInitIndex.getD hp Pixel.new = Pixel.new := by
  rw [encInitIndex, List.getD_eq_getElem?_getD, List.getElem?_replicate]
  split <;> rfl

theorem init_slot_miss (ne hp : Nat) (hne : ne = 3 ∨ ne = 4) :
    encInitIndex.getD hp Pixel.new ≠ (encInitPrev ne).as_rgba ne 0xff := by
  rw [encInitIndex_getD]
  rcases hne with h | h <;> subst h <;> decide

/-- Under the loop invariant (`index_allowed` implies the slot at `hash_prev`
holds the previous pixel; before the first differing pixel the state is
still the initial one), `encodeLoop` agrees with the spec-literal variant:
the source's `run == 1 && index_allowed` flush test is equivalent to the
claim's "run = 1 and the slot already holds the previous pixel". -/
theorem encodeLoop_eq_alt (ne : Nat) (refMode : Bool) (hne : ne = 3 ∨ ne = 4) :
    ∀ (pixels : List Pixel) (i np : Nat) (idxE : List Pixel) (pp : Pixel)
      (hp run : Nat) (allowed : Bool),
      idxE.length = 256 →
      (allowed = true → idxE.getD hp Pixel.new = pp.as_rgba ne 0xff) →
      (allowed = false → idxE = encInitIndex ∧ pp = encInitPrev ne) →
      encodeLoop ne refMode pixels i np idxE pp hp run allowed =
        encodeLoopAlt ne refMode pixels i np idxE pp hp run := by
  intro pixels
  induction pixels with
  | nil =>
    intro i np idxE pp hp run allowed hlen hyes hno
    rw [encodeLoop, encodeLoopAlt]
  | cons p rest ih =>
    intro i np idxE pp hp run allowed hlen hyes hno
    rw [encodeLoop, encodeLoopAlt]
    by_cases hpx : p = pp
    · rw [if_pos hpx, if_pos hpx]
      by_cases hfl : run + 1 = 62 ∨ i = np - 1
      · rw [if_pos hfl, if_pos hfl, ih (i + 1) np idxE pp hp 0 allowed hlen
          hyes hno]
      · rw [if_neg hfl, if_neg hfl]
        exact ih (i + 1) np idxE pp hp (run + 1) allowed hlen hyes hno
    · rw [if_neg hpx, if_neg hpx]
      have hiff : (run = 1 ∧ allowed = true) ↔
          (run = 1 ∧ idxE.getD hp Pixel.new = pp.as_rgba ne 0xff) := by
        constructor
        · rintro ⟨hr1, ha⟩
          exact ⟨hr1, hyes ha⟩
        · rintro ⟨hr1, hs⟩
          cases allowed with
          | true => exact ⟨hr1, rfl⟩
          | false =>
            obtain ⟨hidx0, hpp0⟩ := hno rfl
            rw [hidx0, hpp0] at hs
            exact absurd hs (init_slot_miss ne hp hne)
      have hflush : flushRun refMode run hp allowed =
          (if run ≠ 0 then
            if refMode then [QOI_OP_RUN + (run - 1)]
            else if run = 1 ∧ idxE.getD hp Pixel.new = pp.as_rgba ne 0xff then
              [QOI_OP_INDEX + hp]
            else [QOI_OP_RUN + (run - 1)]
          else []) := by
        rw [flushRun]
        exact if_congr Iff.rfl (if_congr Iff.rfl rfl (if_congr hiff rfl rfl))
          rfl
      rw [hflush]
      refine congrArg _ ?_
      by_cases hhit : idxE.getD ((p.as_rgba ne 0xff).hash_index 4) Pixel.new =
          p.as_rgba ne 0xff
      · rw [if_pos hhit, if_pos hhit,
          ih (i + 1) np idxE p ((p.as_rgba ne 0xff).hash_index 4) 0 true hlen
            (fun _ => hhit) (fun hcontra => absurd hcontra (by decide))]
      · rw [if_neg hhit, if_neg hhit,
          ih (i + 1) np
            (idxE.set ((p.as_rgba ne 0xff).hash_index 4) (p.as_rgba ne 0xff)) p
            ((p.as_rgba ne 0xff).hash_index 4) 0 true
            (by rw [List.length_set]; exact hlen)
            (fun _ => getD_set_self_of_lt _ _ _ _ (by
              rw [hlen]
              have h64 := hash_index_lt 4 (p.as_rgba ne 0xff)
              omega))
            (fun hcontra => absurd hcontra (by decide))]

/-- C6: flushing a pending run of length `R > 0` because the next pixel
differs emits, in default mode, an `QOI_OP_INDEX` opcode for the previous
pixel's hash slot if and only if `R = 1` and that index slot already holds
the previous pixel; in every other case — and always in reference mode —
it emits `QOI_OP_RUN | (R-1)`.  Stated three ways: (a) locally on the flush
under the loop invariants; (b) globally: from the initial encoder state the
source loop produces byte-for-byte the output of the spec-literal variant
`encodeLoopAlt`, whose flush tests exactly "R = 1 and the slot holds the
previous pixel"; (c) both run-flush modes decode back to the original
pixels, hence to the same pixels. -/
theorem c6_run_flush_behavior :
    (∀ (refMode : Bool) (run hp ne : Nat) (allowed : Bool) (idxE : List Pixel)
      (pp : Pixel), run ≠ 0 →
      (allowed = true → idxE.getD hp Pixel.new = pp.as_rgba ne 0xff) →
      (allowed = false → idxE.getD hp Pixel.new ≠ pp.as_rgba ne 0xff) →
      flushRun refMode run hp allowed =
        (if refMode = false ∧ run = 1 ∧
            idxE.getD hp Pixel.new = pp.as_rgba ne 0xff
          then [QOI_OP_INDEX + hp]
          else [QOI_OP_RUN + (run - 1)])) ∧
    (∀ (ne : Nat) (refMode : Bool) (pixels : List Pixel) (np : Nat),
      ne = 3 ∨ ne = 4 →
      encodeLoop ne refMode pixels 0 np encInitIndex (encInitPrev ne)
          ((encInitPrev ne).hash_index ne) 0 false =
        encodeLoopAlt ne refMode pixels 0 np encInitIndex (encInitPrev ne)
          ((encInitPrev ne).hash_index ne) 0) ∧
    (∀ (data : List Nat) (w h C : Nat), C = 3 ∨ C = 4 → 1 ≤ w → 1 ≤ h →
      w * h ≤ 400000000 → data.length = w * h * C → (∀ x ∈ data, x < 256) →
      ∃ outRef outDef, qoiEncodeM true data w h = .ok outRef ∧
        qoiEncodeM false data w h = .ok outDef ∧
        qoiDecodeToVec outRef = .ok (⟨w, h, C, 0⟩, data) ∧
        qoiDecodeToVec outDef = .ok (⟨w, h, C, 0⟩, data)) := by
  refine ⟨?_, ?_, ?_⟩
  · intro refMode run hp ne allowed idxE pp hrun hyes hno
    rw [flushRun, if_pos hrun]
    cases refMode with
    | true =>
      have hR : ¬(true = false ∧ run = 1 ∧
          idxE.getD hp Pixel.new = pp.as_rgba ne 0xff) :=
        fun hcontra => absurd hcontra.1 (by decide)
      have hT : (true : Bool) = true := rfl
      rw [if_pos hT, if_neg hR]
    | false =>
      have hF : ¬((false : Bool) = true) := by decide
      rw [if_neg hF]
      have hiff2 : (run = 1 ∧ allowed = true) ↔
          (false = false ∧ run = 1 ∧
            idxE.getD hp Pixel.new = pp.as_rgba ne 0xff) := by
        constructor
        · rintro ⟨hr1, ha⟩
          exact ⟨rfl, hr1, hyes ha⟩
        · rintro ⟨-, hr1, hslot⟩
          cases allowed with
          | true => exact ⟨hr1, rfl⟩
          | false => exact absurd hslot (hno rfl)
      exact if_congr hiff2 rfl rfl
  · intro ne refMode pixels np hne
    exact encodeLoop_eq_alt ne refMode hne pixels 0 np encInitIndex
      (encInitPrev ne) ((encInitPrev ne).hash_index ne) 0 false
      (by rw [encInitIndex, List.length_replicate])
      (fun hcontra => absurd hcontra (by decide))
      (fun _ => ⟨rfl, rfl⟩)
  · intro data w h C hC hw hh hmax hlen hbytes
    have halpha : C = 4 → C = 3 → ∀ c ∈ groupsN 4 (w * h) data,
        c.getD 3 0 = 255 := by
      intro h4 h3c
      rw [h4] at h3c
      exact absurd h3c (by decide)
    have hflat : ((groupsN C (w * h) data).map
        (fun c => pixelBytes C (phiP C C (Pixel.read C (encInitPrev C) c)))).flatten
        = data := by
      rw [groupsN_flatten_map C _ (fun c => c)
        (fun c hc => chunk_bytes_canonical C hC c hc) (w * h) data hlen]
      rw [List.map_id']
      exact groupsN_flatten C (w * h) data hlen
    have hcoreR := roundtrip_core true data w h C C none rfl hC hC hw hh
      (by simpa [QOI_PIXELS_MAX] using hmax) hlen hbytes halpha
    have hcoreD := roundtrip_core false data w h C C none rfl hC hC hw hh
      (by simpa [QOI_PIXELS_MAX] using hmax) hlen hbytes halpha
    obtain ⟨hencR, hdecR⟩ := hcoreR
    obtain ⟨hencD, hdecD⟩ := hcoreD
    rw [hflat] at hdecR hdecD
    exact ⟨_, _, hencR, hencD, hdecR, hdecD⟩

/-- C6 witness: a concrete flush state (initial-state slot, run 1, not yet
allowed) flushes as `QOI_OP_RUN|0`; the loop equality at a concrete pixel
list; and both modes of a concrete encode decode to the same pixels. -/
theorem c6_run_flush_behavior_witness :
    flushRun false 1 53 false = [QOI_OP_RUN + (1 - 1)] ∧
    encodeLoop 4 false [⟨1, 2, 3, 255⟩] 0 1 encInitIndex (encInitPrev 4)
        ((encInitPrev 4).hash_index 4) 0 false =
      encodeLoopAlt 4 false [⟨1, 2, 3, 255⟩] 0 1 encInitIndex (encInitPrev 4)
        ((encInitPrev 4).hash_index 4) 0 ∧
    (∃ outRef outDef, qoiEncodeM true [1, 2, 3] 1 1 = .ok outRef ∧
      qoiEncodeM false [1, 2, 3] 1 1 = .ok outDef ∧
      qoiDecodeToVec outRef = .ok (⟨1, 1, 3, 0⟩, [1, 2, 3]) ∧
      qoiDecodeToVec outDef = .ok (⟨1, 1, 3, 0⟩, [1, 2, 3])) := by
  refine ⟨?_, ?_, ?_⟩
  · rw [c6_run_flush_behavior.1 false 1 53 4 false encInitIndex
      (Pixel.new.with_a 4 0xff) (by decide)
      (by intro h; exact absurd h (by decide))
      (by intro _ h; exact absurd h (by decide))]
    decide
  · exact c6_run_flush_behavior.2.1 4 false [⟨1, 2, 3, 255⟩] 1 (Or.inr rfl)
  · exact c6_run_flush_behavior.2.2 [1, 2, 3] 1 1 3 (Or.inl rfl) (by decide)
      (by decide) (by decide) (by decide) (by decide)

/-- C3 counterexample: encoding the single pixel `(0,0,0,255)` (1-by-1, four
channels) does not produce the claimed byte string with opcode `0x55`
(`QOI_OP_DIFF` with zero-biased deltas): the pixel equals the initial
previous pixel, so the encoder counts a run and flushes `QOI_OP_RUN|0`. -/
theorem c3_one_pixel_counterexample :
    qoiEncode [0, 0, 0, 255] 1 1 ≠
      .ok [0x71, 0x6f, 0x69, 0x66, 0x00, 0x00, 0x00, 0x01, 0x00, 0x00, 0x00,
        0x01, 0x04, 0x00, 0x55, 0x00, 0x00, 0x00, 0x00, 0x00, 0x00, 0x00,
        0x01] := by
  decide

/-- C3 (amended): the encoding is exactly 23 bytes — the claimed 14 header
bytes, then the opcode byte `0xC0` (`QOI_OP_RUN` with run length 1), then
the 8-byte end marker. -/
theorem c3_one_pixel_encoding :
    qoiEncode [0, 0, 0, 255] 1 1 =
      .ok [0x71, 0x6f, 0x69, 0x66, 0x00, 0x00, 0x00, 0x01, 0x00, 0x00, 0x00,
        0x01, 0x04, 0x00, 0xc0, 0x00, 0x00, 0x00, 0x00, 0x00, 0x00, 0x00,
        0x01] ∧
    ([0x71, 0x6f, 0x69, 0x66, 0x00, 0x00, 0x00, 0x01, 0x00, 0x00, 0x00,
      0x01, 0x04, 0x00, 0xc0, 0x00, 0x00, 0x00, 0x00, 0x00, 0x00, 0x00,
      0x01] : List Nat).length = 23 ∧
    (0xc0 : Nat) = QOI_OP_RUN + (1 - 1) := by
  refine ⟨by decide, by decide, by decide⟩

/-- C4 counterexample: `hash((0,0,0,0))` is `0`, not `53`, and the first
opcode byte emitted for a 4-channel image starting with pixel `(0,0,0,0)`
is `QOI_OP_INDEX|0 = 0x00`, not `QOI_OP_INDEX|53 = 0x35`. -/
theorem c4_first_pixel_counterexample :
    Pixel.hash_index 4 ⟨0, 0, 0, 0⟩ = 0 ∧ (0 : Nat) ≠ 53 ∧
    qoiEncode [0, 0, 0, 0] 1 1 =
      .ok [0x71, 0x6f, 0x69, 0x66, 0, 0, 0, 1, 0, 0, 0, 1, 4, 0,
        0x00, 0, 0, 0, 0, 0, 0, 0, 1] ∧
    (0x00 : Nat) ≠ QOI_OP_INDEX + 53 := by
  refine ⟨by decide, by decide, by decide, by decide⟩

/-- C4 (amended): the encoder seeds every image with previous pixel
`(0,0,0,255)` and an all-zero index table (alpha zero included); hence a
4-channel image whose first pixel is `(0,0,0,0)` starts with an INDEX
opcode addressed to slot `hash((0,0,0,0)) = 0` (not an RGBA opcode). -/
theorem c4_index_seed (data : List Nat) (w h : Nat)
    (hw : 1 ≤ w) (hh : 1 ≤ h) (hmax : w * h ≤ 400000000)
    (hlen : data.length = w * h * 4)
    (hfirst : data.take 4 = [0, 0, 0, 0]) :
    encInitIndex = List.replicate 256 ⟨0, 0, 0, 0⟩ ∧
    encInitPrev 4 = ⟨0, 0, 0, 255⟩ ∧
    Pixel.hash_index 4 ⟨0, 0, 0, 0⟩ = 0 ∧
    ∃ tail, qoiEncode data w h =
      .ok (headerEncode w h 4 0 ++ ((QOI_OP_INDEX + 0) :: tail)) := by
  refine ⟨rfl, by decide, by decide, ?_⟩
  have henc := qoiEncodeM_ok false data w h 4 (Or.inr rfl) hw hh
    (by simpa [QOI_PIXELS_MAX] using hmax) hlen
  have hrows : encodeRows 4 (w * 4) w h data = groupsN 4 (w * h) data :=
    encodeRows_eq_groupsN 4 w (by omega) (by omega) h data (by rw [hlen]; ring)
  obtain ⟨k, hk⟩ : ∃ k, w * h = k + 1 := ⟨w * h - 1, by
    have : 1 ≤ w * h := Nat.one_le_iff_ne_zero.mpr (by positivity)
    omega⟩
  have himpl : ∃ tail, encodeImpl 4 false data w h (w * 4) =
      (QOI_OP_INDEX + 0) :: tail := by
    rw [encodeImpl]
    simp only [hrows, hk]
    rw [groupsN, List.map_cons, hfirst]
    have hread : Pixel.read 4 (encInitPrev 4) [0, 0, 0, 0] = ⟨0, 0, 0, 0⟩ := by
      decide
    rw [hread, encodeLoop, if_neg (by decide : ¬ (⟨0, 0, 0, 0⟩ : Pixel) =
      encInitPrev 4)]
    rw [show flushRun false 0 ((encInitPrev 4).hash_index 4) false = [] from rfl,
      List.nil_append]
    rw [if_pos (by decide : encInitIndex.getD
      ((Pixel.as_rgba 4 ⟨0, 0, 0, 0⟩ 0xff).hash_index 4) Pixel.new =
      Pixel.as_rgba 4 ⟨0, 0, 0, 0⟩ 0xff)]
    rw [List.cons_append,
      (show (Pixel.as_rgba 4 ⟨0, 0, 0, 0⟩ 0xff).hash_index 4 = 0 by decide)]
    exact ⟨_, rfl⟩
  obtain ⟨tail, htail⟩ := himpl
  rw [htail] at henc
  exact ⟨tail, henc⟩

/-- C4 witness at a concrete 1-by-1 image with first pixel `(0,0,0,0)`. -/
theorem c4_index_seed_witness :
    encInitIndex = List.replicate 256 ⟨0, 0, 0, 0⟩ ∧
    encInitPrev 4 = ⟨0, 0, 0, 255⟩ ∧
    Pixel.hash_index 4 ⟨0, 0, 0, 0⟩ = 0 ∧
    ∃ tail, qoiEncode [0, 0, 0, 0] 1 1 =
      .ok (headerEncode 1 1 4 0 ++ ((QOI_OP_INDEX + 0) :: tail)) :=
  c4_index_seed [0, 0, 0, 0] 1 1 (by decide) (by decide) (by decide)
    (by decide) (by decide)

/-- C7: the opcode byte constants equal the spec's values (together with the
derived range-end constants computed in `decode.rs`). -/
theorem c7_opcode_constants :
    QOI_OP_INDEX = 0x00 ∧ QOI_OP_DIFF = 0x40 ∧ QOI_OP_LUMA = 0x80 ∧
    QOI_OP_RUN = 0xc0 ∧ QOI_OP_RGB = 0xfe ∧ QOI_OP_RGBA = 0xff ∧
    QOI_OP_INDEX_END = 0x3f ∧ QOI_OP_RUN_END = 0xfd ∧
    QOI_OP_DIFF_END = 0x7f ∧ QOI_OP_LUMA_END = 0xbf := by
  decide

/-- C8: once all `W*H` pixels have been produced (no output slots remain),
the decoder demands the 8-byte end marker: fewer than 8 remaining bytes is
`UnexpectedBufferEnd`, 8 bytes differing from `00 00 00 00 00 00 00 01` is
`InvalidPadding`, and it succeeds exactly when they match; concretely,
flipping the last byte of the valid one-pixel encoding from `0x01` to
`0x00` makes decoding fail with `InvalidPadding`. -/
theorem c8_padding_check :
    (∀ (n : Nat) (rgba : Bool) (fuel : Nat) (data : List Nat)
      (idx : List Pixel) (px : Pixel),
      decodeLoop n rgba fuel 0 data idx px =
        if data.length < 8 then .error .UnexpectedBufferEnd
        else if data.take 8 ≠ QOI_PADDING then .error .InvalidPadding
        else .ok ([], data)) ∧
    qoiDecodeToVec [0x71, 0x6f, 0x69, 0x66, 0, 0, 0, 1, 0, 0, 0, 1, 4, 0,
        0xc0, 0, 0, 0, 0, 0, 0, 0, 0] = .error .InvalidPadding ∧
    qoiDecodeToVec [0x71, 0x6f, 0x69, 0x66, 0, 0, 0, 1, 0, 0, 0, 1, 4, 0,
        0xc0, 0, 0, 0, 0, 0, 0] = .error .UnexpectedBufferEnd := by
  refine ⟨?_, by decide, by decide⟩
  intro n rgba fuel data idx px
  exact decodeLoop_pad n rgba fuel data idx px

/-- C9 (code bug): `QoiDecoder::decode_to_buf` forwards the entire caller
buffer to `qoi_decode_impl_slice`; `bytemuck::cast_slice_mut` then panics
whenever the buffer length is not a multiple of the channel count (modelled
as `none`), here on a valid 1-by-1 RGBA image with a 5-byte buffer, while
the exact-size buffer decodes fine. -/
theorem c9_decode_to_buf_panics :
    qoiDecodeToBuf [0x71, 0x6f, 0x69, 0x66, 0, 0, 0, 1, 0, 0, 0, 1, 4, 0,
        0xc0, 0, 0, 0, 0, 0, 0, 0, 1] 5 = none ∧
    qoiDecodeToBuf [0x71, 0x6f, 0x69, 0x66, 0, 0, 0, 1, 0, 0, 0, 1, 4, 0,
        0xc0, 0, 0, 0, 0, 0, 0, 0, 1] 4 =
      some (.ok ([0, 0, 0, 255], 4)) := by
  refine ⟨by decide, by decide⟩

/-- C10: `Header::decode` validates the channels byte (offset 12) and the
colorspace byte (offset 13) before comparing the magic: a long-enough input
with a wrong magic and a channels byte outside `{3,4}` yields
`InvalidChannels`, and `InvalidMagic` is possible only when the channels
and colorspace bytes are themselves valid. -/
theorem c10_header_decode_order (data : List Nat) (h14 : 14 ≤ data.length) :
    (be32val (data.getD 0 0) (data.getD 1 0) (data.getD 2 0) (data.getD 3 0) ≠
        QOI_MAGIC →
      data.getD 12 0 ≠ 3 → data.getD 12 0 ≠ 4 →
      headerDecode data = .error (.InvalidChannels (data.getD 12 0))) ∧
    (∀ m, headerDecode data = .error (.InvalidMagic m) →
      (data.getD 12 0 = 3 ∨ data.getD 12 0 = 4) ∧
        (data.getD 13 0) ||| 1 = 1) := by
  constructor
  · intro hmagic hch3 hch4
    rw [headerDecode, if_neg (by simp only [QOI_HEADER_SIZE]; omega)]
    rw [if_pos ⟨hch3, hch4⟩]
  · intro m heq
    rw [headerDecode, if_neg (by simp only [QOI_HEADER_SIZE]; omega)] at heq
    by_cases hch : data.getD 12 0 ≠ 3 ∧ data.getD 12 0 ≠ 4
    · rw [if_pos hch] at heq
      exact absurd heq (by simp)
    · rw [if_neg hch] at heq
      by_cases hcs : (data.getD 13 0) ||| 1 ≠ 1
      · rw [if_pos hcs] at heq
        exact absurd heq (by simp)
      · refine ⟨by omega, by omega⟩

/-- C10 witness: fourteen zero bytes (wrong magic, channels byte 0) decode
to `InvalidChannels 0`. -/
theorem c10_header_decode_order_witness :
    headerDecode (List.replicate 14 0) = .error (.InvalidChannels 0) :=
  (c10_header_decode_order (List.replicate 14 0) (by decide)).1 (by decide)
    (by decide) (by decide)
